import Mathlib

/-!
Verification development for the `cargo-sdl-apk` project-assembly and signing
pipeline (`src/android_project.rs`, `src/util.rs`).

Strings from the source are modelled as `List Char` (Rust byte offsets agree
with character offsets on the ASCII data handled here).  Filesystem and
process effects are modelled as explicit event traces; a Rust `panic!`,
`expect`, `unwrap` or failed `assert!` is modelled as an error value.
-/

namespace CargoSdlApk

/-! ### Substring search primitives

These model the semantics of the `regex` crate pattern
`<manifest.*?>(.*)</manifest>` (built with `dot_matches_new_line(true)`),
i.e. the static `MANIFEST_TAG_CONTENT_REGEX` of `android_project.rs`.
-/

/-- Index of the first occurrence of `pat` in `s` (`none` if absent). -/
def findSub (pat : List Char) : List Char → Option Nat
  | [] => if pat.isPrefixOf ([] : List Char) then some 0 else none
  | c :: rest =>
    if pat.isPrefixOf (c :: rest) then some 0
    else (findSub pat rest).map (· + 1)

/-- Index of the last occurrence of `pat` in `s` (`none` if absent). -/
def findSubLast (pat : List Char) : List Char → Option Nat
  | [] => if pat.isPrefixOf ([] : List Char) then some 0 else none
  | c :: rest =>
    match findSubLast pat rest with
    | some i => some (i + 1)
    | none => if pat.isPrefixOf (c :: rest) then some 0 else none

/-- Boolean substring test: does `pat` occur anywhere in `s`?
This models Rust `str::contains` with a literal pattern. -/
def occursInB (pat s : List Char) : Bool := (findSub pat s).isSome

/-- Character list of the literal `<manifest` (the opening literal of the
manifest regex; 9 characters). -/
def openTagChars : List Char := "<manifest".data

/-- Character list of the literal `</manifest>` (11 characters). -/
def closeTagChars : List Char := "</manifest>".data

/-- Index of the first position whose character is `>` and after which
`</manifest>` still occurs.  This is where the lazy `.*?>` of the manifest
regex stops: backtracking grows `.*?` one character at a time and accepts the
first `>` from which the remaining pattern `(.*)</manifest>` can match. -/
def findGtClose : List Char → Option Nat
  | [] => none
  | c :: rest =>
    if c = '>' ∧ occursInB closeTagChars rest then some 0
    else (findGtClose rest).map (· + 1)

/-- Characters of `s` in positions `[b, e)`. -/
def sliceL (s : List Char) (b e : Nat) : List Char := (s.take e).drop b

/-- Insertion of `ins` into `s` at position `p`; models
`String::insert_str`. -/
def insertAtL (s : List Char) (p : Nat) (ins : List Char) : List Char :=
  s.take p ++ ins ++ s.drop p

/-- Capture bounds `(start, end)` of group 1 of
`MANIFEST_TAG_CONTENT_REGEX` = `<manifest.*?>(.*)</manifest>` with
`dot_matches_new_line`, under the leftmost-first match semantics of the
`regex` crate: the match starts at the first occurrence of `<manifest`
(if a later occurrence admitted a full match, so would the first, because
the witnessing `>` and `</manifest>` also lie after the first occurrence);
the lazy `.*?` stops at the first `>` from which the rest can match; the
greedy `(.*)` extends to the last `</manifest>`.  The returned `end` is the
offset of that final `</manifest>`, i.e. `Match::end` of the capture. -/
def manifestCapture (s : List Char) : Option (Nat × Nat) :=
  match findSub openTagChars s with
  | none => none
  | some i =>
    match findGtClose (s.drop (i + 9)) with
    | none => none
    | some dj =>
      match findSubLast closeTagChars (s.drop (i + 9 + dj + 1)) with
      | none => none
      | some dk => some (i + 9 + dj + 1, i + 9 + dj + 1 + dk)

/-- Fixed first part of a permission entry, up to the interpolated
permission name (50 characters). -/
def entryPrefixChars : List Char :=
  "<uses-permission android:name=\"android.permission.".data

/-- Fixed tail of a permission entry (3 characters). -/
def entryTailChars : List Char := "\"/>".data

/-- Permission entry string built by `add_uses_permission_entry`:
`format!("<uses-permission android:name=\"android.permission.LITERAL/>", permission.to_uppercase())`
with the name upper-cased.  `Char.toUpper` models Rust `to_uppercase` on
ASCII input; the proofs below use only that the upper-cased name contains no
ASCII lower-case letter, which holds for the Rust function as well. -/
def permissionEntry (permission : String) : List Char :=
  entryPrefixChars ++ permission.data.map Char.toUpper ++ entryTailChars

/-- Pure model of `add_uses_permission_entry` acting on the manifest file
content: locate the root element content with the regex (a failed match is
the fatal `expect`, modelled as `none`), skip the insertion when the entry
already occurs verbatim in the captured content, otherwise insert the entry
at the end offset of the capture. -/
def add_uses_permission_entry (content : List Char) (permission : String) :
    Option (List Char) :=
  match manifestCapture content with
  | none => none
  | some (b, e) =>
    let tagContent := sliceL content b e
    let entry := permissionEntry permission
    if occursInB entry tagContent then some content
    else some (insertAtL content e entry)

/-- Number of positions of `s` at which `pat` occurs (all occurrences,
including overlapping ones). -/
def countOccAll (pat s : List Char) : Nat :=
  ((List.range (s.length + 1)).filter fun p => pat.isPrefixOf (s.drop p)).length

/-! ### Architecture name mapper -/

/-- Model of `get_target_android_name`: the fixed four-entry table; the
`panic!("Unknown target: ...")` default arm is modelled as `none`. -/
def get_target_android_name (rust_target_name : String) : Option String :=
  match rust_target_name with
  | "aarch64-linux-android" => some "arm64-v8a"
  | "armv7-linux-androideabi" => some "armeabi-v7a"
  | "i686-linux-android" => some "x86"
  | "x86_64-linux-android" => some "x86_64"
  | _ => none

/-! ### Metadata (TOML) accessors, from `util.rs`

The file read and TOML parse (`read_to_string` / `parse::<Table>`, both
`expect`-fatal) are abstracted: the functions below receive the already
parsed root table.  `other` stands for every TOML value that is neither a
string, a table nor an array (integers, floats, booleans, datetimes): the
accessors treat all of those alike.
-/

/-- Model of `toml::Value` restricted to the shapes the accessors
distinguish. -/
inductive TomlValue where
  | str (s : String)
  | table (entries : List (String × TomlValue))
  | arr (elems : List TomlValue)
  | other

/-- Key lookup in a TOML table, modelling `Table::get`. -/
def lookupTable (entries : List (String × TomlValue)) (key : String) :
    Option TomlValue :=
  match entries with
  | [] => none
  | (k, v) :: rest => if k = key then some v else lookupTable rest key

/-- Model of `get_toml_entry`: walk the dotted path through nested tables;
an intermediate non-table value or a missing key yields `none`. -/
def get_toml_entry (table : List (String × TomlValue)) :
    List String → Option TomlValue
  | [] => some (.table table)
  | k :: rest =>
    match lookupTable table k with
    | none => none
    | some v =>
      if rest.isEmpty then some v
      else
        match v with
        | .table t => get_toml_entry t rest
        | _ => none

/-- String projection used by `get_toml_string_vec` element-wise. -/
def toStrOpt : TomlValue → Option String
  | .str s => some s
  | _ => none

/-- Collection of element-wise string projections; models
`collect::<Option<Vec<String>>>` (the first non-string element makes the
whole result `None`). -/
def collectStrings : List TomlValue → Option (List String)
  | [] => some []
  | v :: rest =>
    match toStrOpt v with
    | none => none
    | some s =>
      match collectStrings rest with
      | none => none
      | some ss => some (s :: ss)

/-- Model of `get_toml_string`: only a string value is returned. -/
def get_toml_string (table : List (String × TomlValue)) (path : List String) :
    Option String :=
  match get_toml_entry table path with
  | some (.str s) => some s
  | _ => none

/-- Model of `get_toml_string_vec`: only an array all of whose elements are
strings is returned (`collect` over `Option` fails on the first non-string
element). -/
def get_toml_string_vec (table : List (String × TomlValue))
    (path : List String) : Option (List String) :=
  match get_toml_entry table path with
  | some (.arr a) => collectStrings a
  | _ => none

/-- Model of `get_android_app_id`: the `package_name` metadata entry with
default `org.libsdl.app`. -/
def get_android_app_id (root : List (String × TomlValue)) : String :=
  (get_toml_string root ["package", "metadata", "android", "package_name"]).getD
    "org.libsdl.app"

/-- Resolved display name (`title` entry, default `Untitled`), as computed
inline in `create_android_project`. -/
def get_android_app_name (root : List (String × TomlValue)) : String :=
  (get_toml_string root ["package", "metadata", "android", "title"]).getD
    "Untitled"

/-- Resolved optional icon path, as computed inline in
`create_android_project`. -/
def get_android_app_icon (root : List (String × TomlValue)) : Option String :=
  get_toml_string root ["package", "metadata", "android", "icon"]

/-- Resolved permission list (default empty), as computed inline in
`create_android_project`. -/
def get_android_permissions (root : List (String × TomlValue)) : List String :=
  (get_toml_string_vec root ["package", "metadata", "android", "permissions"]).getD []

/-! ### Literal find/replace, from `change_android_project_file` -/

/-- Replacement of every non-overlapping occurrence of `pat` by `rep`,
scanning left to right; models Rust `str::replace` (call sites only use
non-empty literal patterns). -/
def replaceAll (pat rep : List Char) : List Char → List Char
  | [] => []
  | c :: cs =>
    if pat ≠ [] ∧ pat.isPrefixOf (c :: cs) then
      rep ++ replaceAll pat rep ((c :: cs).drop pat.length)
    else
      c :: replaceAll pat rep cs
termination_by s => s.length
decreasing_by
  · rename_i h
    simp only [List.length_drop, List.length_cons]
    have hp : 0 < pat.length := List.length_pos.mpr h.1
    omega
  · simp

/-- Sequential application of the literal replacements of one
`change_android_project_file` call. -/
def applyReplacements (content : List Char)
    (rs : List (List Char × List Char)) : List Char :=
  rs.foldl (fun c pr => replaceAll pr.1 pr.2 c) content

/-- Manifest content after the `change_android_project_file` call on
`app/src/main/AndroidManifest.xml`: replace `SDLActivity` by `MainActivity`,
then `org.libsdl.app` by the resolved application id. -/
def manifestAfterRewrite (tmpl : List Char) (appid : String) : List Char :=
  applyReplacements tmpl
    [("SDLActivity".data, "MainActivity".data),
     ("org.libsdl.app".data, appid.data)]

/-! ### Pipeline model

The assembly pipeline performs filesystem mutations and external process
invocations; these are recorded as an ordered event trace.  A Rust panic
(`panic!`, `expect`, `unwrap`, failed `assert!`) aborts the run: the model
returns the events that had already happened together with the panic.
Filesystem operations whose failure depends only on the external world
(template copy, file writes) are modelled as succeeding; the panics modelled
here are the ones decided by the modelled data: the unknown-target panic,
the manifest-regex `expect`, the missing-keystore-password `expect`, and the
`assert!` on each external tool exit status (tool outcomes are inputs of the
model, in `World`).
-/

/-- Modelled from the spec: `BuildProfile` is declared in the crate root,
which is not part of the given sources; the spec defines it as the
enumeration with the two values Debug and Release. -/
inductive BuildProfile where
  | debug
  | release
  deriving DecidableEq

/-- Reasons for which the modelled pipeline aborts. -/
inductive PanicMsg where
  | unknownTarget (target : String)
  | manifestTagNotFound
  | needKeystorePassword
  | buildToolsUnreadable
  | noBuildTools
  | keytoolFailed
  | gradleFailed
  | zipalignFailed
  | apksignerFailed
  deriving DecidableEq

/-- Filesystem mutations and external process invocations of the pipeline,
in the order they are performed. -/
inductive Event where
  | copyTemplate
  | writeMainActivity (appid : String)
  | rewriteProjectFile (name : String)
  | addPermission (permission : String)
  | removeCSources
  | linkSDL
  | placeArtifact (target : String) (androidName : String)
  | copyIcon (bucket : String)
  | gradle (task : String)
  | keytoolGen (dname storepass keystore keyalg : String)
      (keysize validity : Nat)
  | zipalign
  | apksigner (ksFile ksPass : String)
  deriving DecidableEq

/-- External state the pipeline depends on: the template manifest content
(read after the template copy), whether the SDL symlink slot is already a
directory, the `build-tools` directory listing (`none` models an unreadable
directory), whether the conventional keystore file exists, and the exit
status of each external tool. -/
structure World where
  templateManifest : List Char
  sdlJniLinkExists : Bool
  buildTools : Option (List String)
  keystoreExists : Bool
  keytoolOk : Bool
  gradleOk : Bool
  zipalignOk : Bool
  apksignerOk : Bool

/-- Permission loop of `create_android_project`: each resolved permission
name is passed to `add_uses_permission_entry` against the current manifest
content; a failed regex match is the fatal `expect`. -/
def permissionLoop :
    List String → List Char → List Event →
      List Event × List Char × Option PanicMsg
  | [], content, acc => (acc, content, none)
  | p :: rest, content, acc =>
    match add_uses_permission_entry content p with
    | none => (acc, content, some .manifestTagNotFound)
    | some content2 => permissionLoop rest content2 (acc ++ [Event.addPermission p])

/-- Artifact placement loop of `create_android_project`: for each
`(target, artifact)` pair the architecture name is resolved (unknown target:
fatal) and the artifact is copied as `libmain.so`. -/
def placeLoop :
    List (String × String) → List Event → List Event × Option PanicMsg
  | [], acc => (acc, none)
  | (target, _) :: rest, acc =>
    match get_target_android_name target with
    | none => (acc, some (.unknownTarget target))
    | some an => placeLoop rest (acc ++ [Event.placeArtifact target an])

/-- Icon copy attempts (one per density bucket, failures are warnings only,
so every bucket is attempted). -/
def iconEvents (icon : Option String) : List Event :=
  match icon with
  | none => []
  | some _ => ["m", "h", "xh", "xxh", "xxxh"].map Event.copyIcon

/-- Events of the template copy, entry-point write and the three file
rewrites, in source order. -/
def templEvents (appid : String) : List Event :=
  [Event.copyTemplate, Event.writeMainActivity appid,
   Event.rewriteProjectFile "app/src/main/AndroidManifest.xml",
   Event.rewriteProjectFile "app/build.gradle",
   Event.rewriteProjectFile "app/src/main/res/values/strings.xml"]

/-- Conditional symlink step: the link is established only when the slot is
not already a directory. -/
def linkStep (slotIsDir : Bool) (evs : List Event) : List Event :=
  if slotIsDir then evs else evs ++ [Event.linkSDL]

/-- Trace model of `create_android_project`, with the steps in source
order: resolve identity, copy the template, write `MainActivity.java`,
rewrite the three project files, insert the permission entries, remove the
C sources, link SDL (only when the slot is not already a directory), place
the per-target artifacts, copy the icon. -/
def create_android_project (w : World)
    (root : List (String × TomlValue))
    (targetArtifacts : List (String × String)) :
    List Event × Option PanicMsg :=
  match permissionLoop (get_android_permissions root)
      (manifestAfterRewrite w.templateManifest (get_android_app_id root))
      (templEvents (get_android_app_id root)) with
  | (evs, _, some msg) => (evs, some msg)
  | (evs, _, none) =>
    match placeLoop targetArtifacts
        (linkStep w.sdlJniLinkExists (evs ++ [Event.removeCSources])) with
    | (evs2, some msg) => (evs2, some msg)
    | (evs2, none) => (evs2 ++ iconEvents (get_android_app_icon root), none)

/-! ### Signing pipeline, from `sign_android` -/

/-- Lexicographic comparison of character lists by code point; models the
byte-lexicographic order of Rust `String` (UTF-8 byte order coincides with
code-point order). -/
def strLeB : List Char → List Char → Bool
  | [], _ => true
  | _ :: _, [] => false
  | a :: as, b :: bs =>
    if a.toNat < b.toNat then true
    else if b.toNat < a.toNat then false
    else strLeB as bs

/-- Lexicographic string comparison used by the sort model. -/
def strLe (a b : String) : Bool := strLeB a.data b.data

/-- Insertion of a string into an ascending list at its place. -/
def insertSorted (x : String) : List String → List String
  | [] => [x]
  | y :: rest => if strLe x y then x :: y :: rest else y :: insertSorted x rest

/-- Ascending sort of the `build-tools` entry names; models `Vec::sort`
(lexicographic string order, insertion sort). -/
def sortStrings : List String → List String
  | [] => []
  | x :: rest => insertSorted x (sortStrings rest)

/-- Tool-version selection of `sign_android`: sort the entries, reverse,
take index 0.  The empty case models the panic of indexing an empty vector. -/
def selectBuildToolsVersion (entries : List String) : Option String :=
  ((sortStrings entries).reverse).head?

/-- Conventional keystore path inside the release output directory. -/
def conventionalKeystorePath (releaseDir : String) : String :=
  releaseDir ++ "/app-release.jks"

/-- Credential resolution of `sign_android`: a supplied keystore path
demands a supplied password (fatal otherwise) and both are used verbatim;
otherwise the conventional path is used, `keytool` generates a keystore
there only when the file does not exist (fixed subject, store password
`android`, RSA, 2048 bits, 10000 days), and the password is reported as the
reference string `pass:android`. -/
def resolveKeyCredential (keystoreExists keytoolOk : Bool)
    (releaseDir : String) (ksFile ksPass : Option String) :
    List Event × Except PanicMsg (String × String) :=
  match ksFile with
  | some f =>
    match ksPass with
    | none => ([], .error .needKeystorePassword)
    | some p => ([], .ok (f, p))
  | none =>
    let keyPath := conventionalKeystorePath releaseDir
    if keystoreExists then ([], .ok (keyPath, "pass:android"))
    else
      let ev := Event.keytoolGen
        "CN=Unknown, OU=Unknown, O=Unknown, L=Unknown, S=Unknown, C=Unknown"
        "android" keyPath "RSA" 2048 10000
      if keytoolOk then ([ev], .ok (keyPath, "pass:android"))
      else ([ev], .error .keytoolFailed)

/-- Trace model of `sign_android`, in source order: build-tools discovery
(unreadable directory or empty listing: fatal), credential resolution,
`zipalign` (fatal on non-zero exit), `apksigner` (fatal on non-zero
exit). -/
def sign_android (w : World) (releaseDir : String)
    (ksFile ksPass : Option String) : List Event × Option PanicMsg :=
  match w.buildTools with
  | none => ([], some .buildToolsUnreadable)
  | some entries =>
    match selectBuildToolsVersion entries with
    | none => ([], some .noBuildTools)
    | some _toolsVersion =>
      let (ev1, cred) :=
        resolveKeyCredential w.keystoreExists w.keytoolOk releaseDir ksFile ksPass
      match cred with
      | .error msg => (ev1, some msg)
      | .ok (keyFile, keyPass) =>
        let ev2 := ev1 ++ [Event.zipalign]
        if w.zipalignOk then
          let ev3 := ev2 ++ [Event.apksigner keyFile keyPass]
          if w.apksignerOk then (ev3, none) else (ev3, some .apksignerFailed)
        else (ev2, some .zipalignFailed)

/-- Gradle task selected from the build profile. -/
def gradleTask : BuildProfile → String
  | .debug => "assembleDebug"
  | .release => "assembleRelease"

/-- Trace model of `build_android_project`: create the project, invoke
gradle with the profile task (fatal on non-zero exit), and run the signing
pipeline only for the release profile. -/
def build_android_project (w : World)
    (root : List (String × TomlValue))
    (targetArtifacts : List (String × String))
    (profile : BuildProfile)
    (releaseDir : String)
    (ksFile ksPass : Option String) : List Event × Option PanicMsg :=
  match create_android_project w root targetArtifacts with
  | (evs, some msg) => (evs, some msg)
  | (evs, none) =>
    let evs := evs ++ [Event.gradle (gradleTask profile)]
    if w.gradleOk then
      match profile with
      | .debug => (evs, none)
      | .release =>
        let (sevs, res) := sign_android w releaseDir ksFile ksPass
        (evs ++ sevs, res)
    else (evs, some .gradleFailed)

/-- Predicate for alignment-tool invocations. -/
def isZipalignEvent : Event → Bool
  | .zipalign => true
  | _ => false

/-- Predicate for signing-tool invocations. -/
def isApksignerEvent : Event → Bool
  | .apksigner _ _ => true
  | _ => false

/-- Predicate for keystore-generation invocations. -/
def isKeytoolEvent : Event → Bool
  | .keytoolGen _ _ _ _ _ _ => true
  | _ => false

/-- Predicate for any signing-pipeline invocation (keystore generation,
alignment, signing). -/
def isSignEvent (e : Event) : Bool :=
  isZipalignEvent e || isApksignerEvent e || isKeytoolEvent e

/-! ### Concrete values used by the claim theorems -/

/-- Match condition of `findGtClose` at a position. -/
def GtCloseCond (s : List Char) (p : Nat) : Prop :=
  s[p]? = some '>' ∧ occursInB closeTagChars (s.drop (p + 1)) = true

/-- Manifest with the entry for `internet` already present twice in its
root-element content. -/
def c2Manifest : List Char :=
  "<manifest>".data ++ permissionEntry "internet" ++ permissionEntry "internet"
    ++ "</manifest>".data

/-- World with every external dependency healthy and the symlink slot
free. -/
def w0 : World :=
  ⟨"<manifest>\n</manifest>".data, false, some ["30.0.3", "29.0.2"],
    false, true, true, true, true⟩

/-- World whose symlink slot is already a directory. -/
def wLinked : World :=
  ⟨"<manifest>\n</manifest>".data, true, some ["30.0.3"],
    false, true, true, true, true⟩

/-- Metadata document whose permissions list holds a string and a
non-string element. -/
def c10Root : List (String × TomlValue) :=
  [("package", TomlValue.table
    [("metadata", TomlValue.table
      [("android", TomlValue.table
        [("permissions", TomlValue.arr
          [TomlValue.str "camera", TomlValue.other])])])])]

/-- World whose `build-tools` directory is empty. -/
def wEmptyTools : World :=
  ⟨"<manifest>\n</manifest>".data, false, some [], false, true, true, true, true⟩

/-- World whose `build-tools` directory is unreadable. -/
def wNoTools : World :=
  ⟨"<manifest>\n</manifest>".data, false, none, false, true, true, true, true⟩

/-- World whose alignment tool exits non-zero. -/
def wZipFail : World :=
  ⟨"<manifest>\n</manifest>".data, false, some ["30.0.3"],
    false, true, true, false, true⟩

/-- World whose gradle invocation exits non-zero. -/
def wGradleFail : World :=
  ⟨"<manifest>\n</manifest>".data, false, some ["30.0.3"],
    false, true, false, true, true⟩

/-! ### Prefix and search lemmas -/

/-- Characterisation of `List.isPrefixOf` through `take`. -/
theorem pfx_iff_take {pat l : List Char} :
    pat.isPrefixOf l = true ↔ l.take pat.length = pat := by
  induction pat generalizing l with
  | nil => simp [List.isPrefixOf]
  | cons a as ih =>
    cases l with
    | nil => simp [List.isPrefixOf]
    | cons b bs =>
      simp only [List.isPrefixOf, Bool.and_eq_true, beq_iff_eq,
        List.length_cons, List.take_succ_cons, List.cons.injEq, ih]
      constructor
      · rintro ⟨h1, h2⟩; exact ⟨h1.symm, h2⟩
      · rintro ⟨h1, h2⟩; exact ⟨h1.symm, h2⟩

/-- Prefixes are not longer than the list. -/
theorem pfx_length_le {pat l : List Char} (h : pat.isPrefixOf l = true) :
    pat.length ≤ l.length := by
  have := congrArg List.length (pfx_iff_take.mp h)
  simp only [List.length_take] at this
  omega

/-- Whether `pat` is a prefix of `l ++ r` is decided inside `l` whenever
`pat` fits into `l`. -/
theorem pfx_append_left {pat l r : List Char} (h : pat.length ≤ l.length) :
    (pat.isPrefixOf (l ++ r) = true ↔ pat.isPrefixOf l = true) := by
  rw [pfx_iff_take, pfx_iff_take, List.take_append_of_le_length h]

/-- Every list is a prefix of itself followed by anything. -/
theorem pfx_append_self {pat r : List Char} :
    pat.isPrefixOf (pat ++ r) = true :=
  pfx_iff_take.mpr (List.take_left pat r)

/-- Specification of `findSub`: it returns the first occurrence. -/
theorem findSub_eq_some_iff {pat s : List Char} {i : Nat} :
    findSub pat s = some i ↔
      pat.isPrefixOf (s.drop i) = true ∧
        ∀ p, p < i → pat.isPrefixOf (s.drop p) = false := by
  induction s generalizing i with
  | nil =>
    simp only [findSub, List.drop_nil]
    by_cases h : pat.isPrefixOf ([] : List Char) = true
    · rw [if_pos h]
      constructor
      · intro hs
        have hi : i = 0 := by
          have := Option.some.inj hs; omega
        subst hi
        exact ⟨h, fun p hp => absurd hp (Nat.not_lt_zero p)⟩
      · rintro ⟨-, hall⟩
        rcases Nat.eq_zero_or_pos i with h0 | h0
        · rw [h0]
        · have := hall 0 h0
          rw [h] at this
          cases this
    · rw [if_neg h]
      constructor
      · intro hs; cases hs
      · rintro ⟨h1, -⟩; exact absurd h1 h
  | cons c r ih =>
    by_cases hp : pat.isPrefixOf (c :: r) = true
    · simp only [findSub, if_pos hp]
      constructor
      · intro hs
        have hi : i = 0 := by
          have := Option.some.inj hs; omega
        subst hi
        exact ⟨by simpa using hp, fun p hple => absurd hple (Nat.not_lt_zero p)⟩
      · rintro ⟨-, hall⟩
        rcases Nat.eq_zero_or_pos i with h0 | h0
        · rw [h0]
        · have := hall 0 h0
          simp only [List.drop_zero] at this
          rw [hp] at this
          cases this
    · simp only [findSub, if_neg hp]
      cases i with
      | zero =>
        simp only [List.drop_zero]
        constructor
        · intro hs
          rcases Option.map_eq_some'.mp hs with ⟨j, -, hj⟩
          omega
        · rintro ⟨h1, -⟩; exact absurd h1 hp
      | succ k =>
        constructor
        · intro hs
          rcases Option.map_eq_some'.mp hs with ⟨j, hj, hjk⟩
          have hk : j = k := by omega
          subst hk
          rcases ih.mp hj with ⟨h1, h2⟩
          refine ⟨by simpa using h1, ?_⟩
          intro p hple
          cases p with
          | zero => simpa using (Bool.eq_false_iff.mpr hp)
          | succ q =>
            have := h2 q (by omega)
            simpa using this
        · rintro ⟨h1, h2⟩
          have hr : findSub pat r = some k := by
            apply ih.mpr
            refine ⟨by simpa using h1, ?_⟩
            intro q hq
            have := h2 (q + 1) (by omega)
            simpa using this
          rw [hr]
          rfl

/-- Specification of `findSub` failure: no occurrence at all. -/
theorem findSub_eq_none_iff {pat s : List Char} :
    findSub pat s = none ↔ ∀ p, pat.isPrefixOf (s.drop p) = false := by
  induction s with
  | nil =>
    simp only [findSub, List.drop_nil]
    by_cases h : pat.isPrefixOf ([] : List Char) = true
    · rw [if_pos h]
      constructor
      · intro hs; cases hs
      · intro hall
        have := hall 0
        rw [h] at this
        cases this
    · rw [if_neg h]
      simp [Bool.eq_false_iff.mpr h]
  | cons c r ih =>
    by_cases hp : pat.isPrefixOf (c :: r) = true
    · simp only [findSub, if_pos hp]
      constructor
      · intro hs; cases hs
      · intro hall
        have := hall 0
        simp only [List.drop_zero] at this
        rw [hp] at this
        cases this
    · simp only [findSub, if_neg hp, Option.map_eq_none']
      rw [ih]
      constructor
      · intro hall p
        cases p with
        | zero => simpa using (Bool.eq_false_iff.mpr hp)
        | succ q => simpa using hall q
      · intro hall q
        have := hall (q + 1)
        simpa using this

/-- Existence form of `occursInB`. -/
theorem occursInB_iff {pat s : List Char} :
    occursInB pat s = true ↔ ∃ p, pat.isPrefixOf (s.drop p) = true := by
  unfold occursInB
  rw [Option.isSome_iff_exists]
  constructor
  · rintro ⟨i, hi⟩
    exact ⟨i, (findSub_eq_some_iff.mp hi).1⟩
  · rintro ⟨p, hp⟩
    rcases ho : findSub pat s with - | j
    · have := findSub_eq_none_iff.mp ho p
      rw [hp] at this
      cases this
    · exact ⟨j, rfl⟩

/-- Specification of `findSubLast` failure (for a non-empty pattern). -/
theorem findSubLast_eq_none_iff {pat s : List Char} (hne : pat ≠ []) :
    findSubLast pat s = none ↔ ∀ p, pat.isPrefixOf (s.drop p) = false := by
  have hnil : pat.isPrefixOf ([] : List Char) = false := by
    cases pat with
    | nil => exact absurd rfl hne
    | cons a as => rfl
  induction s with
  | nil =>
    simp only [findSubLast, List.drop_nil, if_neg (Bool.eq_false_iff.mp hnil)]
    simp [hnil]
  | cons c r ih =>
    rcases ho : findSubLast pat r with - | j
    · have hall := ih.mp ho
      by_cases hp : pat.isPrefixOf (c :: r) = true
      · simp only [findSubLast, ho, if_pos hp]
        constructor
        · intro hs; cases hs
        · intro h
          have := h 0
          simp only [List.drop_zero] at this
          rw [hp] at this
          cases this
      · simp only [findSubLast, ho, if_neg hp]
        constructor
        · rintro -
          intro p
          cases p with
          | zero => simpa using (Bool.eq_false_iff.mpr hp)
          | succ q => simpa using hall q
        · rintro -; trivial
    · simp only [findSubLast, ho]
      constructor
      · intro hs; cases hs
      · intro h
        have hnone : findSubLast pat r = none := by
          apply ih.mpr
          intro q
          have := h (q + 1)
          simpa using this
        rw [ho] at hnone
        cases hnone

/-- Specification of `findSubLast`: it returns the last occurrence (for a
non-empty pattern). -/
theorem findSubLast_eq_some_iff {pat s : List Char} {k : Nat}
    (hne : pat ≠ []) :
    findSubLast pat s = some k ↔
      pat.isPrefixOf (s.drop k) = true ∧
        ∀ p, k < p → pat.isPrefixOf (s.drop p) = false := by
  have hnil : pat.isPrefixOf ([] : List Char) = false := by
    cases pat with
    | nil => exact absurd rfl hne
    | cons a as => rfl
  induction s generalizing k with
  | nil =>
    simp only [findSubLast, List.drop_nil, if_neg (Bool.eq_false_iff.mp hnil)]
    constructor
    · intro hs; cases hs
    · rintro ⟨h1, -⟩
      rw [hnil] at h1
      cases h1
  | cons c r ih =>
    rcases ho : findSubLast pat r with - | j
    · have hall : ∀ q, pat.isPrefixOf (r.drop q) = false :=
        (findSubLast_eq_none_iff hne).mp ho
      by_cases hp : pat.isPrefixOf (c :: r) = true
      · simp only [findSubLast, ho, if_pos hp]
        constructor
        · intro hs
          have hk : k = 0 := by
            have := Option.some.inj hs; omega
          subst hk
          refine ⟨by simpa using hp, ?_⟩
          intro p hppos
          cases p with
          | zero => exact absurd hppos (by omega)
          | succ q => simpa using hall q
        · rintro ⟨h1, -⟩
          rcases Nat.eq_zero_or_pos k with h0 | h0
          · rw [h0]
          · rcases k with - | kk
            · omega
            · have := hall kk
              simp only [List.drop_succ_cons] at h1
              rw [h1] at this
              cases this
      · simp only [findSubLast, ho, if_neg hp]
        constructor
        · intro hs; cases hs
        · rintro ⟨h1, -⟩
          rcases k with - | kk
          · simp only [List.drop_zero] at h1
            exact absurd h1 hp
          · simp only [List.drop_succ_cons] at h1
            have := hall kk
            rw [h1] at this
            cases this
    · simp only [findSubLast, ho]
      have hj := ih.mp ho
      constructor
      · intro hs
        have hk : k = j + 1 := by
          have := Option.some.inj hs; omega
        subst hk
        refine ⟨by simpa using hj.1, ?_⟩
        intro p hplt
        rcases p with - | q
        · omega
        · exact (by simpa using hj.2 q (by omega))
      · rintro ⟨h1, h2⟩
        rcases k with - | kk
        · exfalso
          have := h2 (j + 1) (by omega)
          simp only [List.drop_succ_cons] at this
          rw [hj.1] at this
          cases this
        · have : findSubLast pat r = some kk := by
            apply ih.mpr
            refine ⟨by simpa using h1, ?_⟩
            intro q hq
            have := h2 (q + 1) (by omega)
            simpa using this
          rw [ho] at this
          have hjk := Option.some.inj this
          rw [hjk]

/-- Specification of `findGtClose`: the first position satisfying
`GtCloseCond`. -/
theorem findGtClose_eq_some_iff {s : List Char} {d : Nat} :
    findGtClose s = some d ↔
      GtCloseCond s d ∧ ∀ p, p < d → ¬ GtCloseCond s p := by
  induction s generalizing d with
  | nil =>
    simp only [findGtClose]
    constructor
    · intro hs; cases hs
    · rintro ⟨⟨h1, -⟩, -⟩
      simp at h1
  | cons c r ih =>
    by_cases hc : c = '>' ∧ occursInB closeTagChars r = true
    · simp only [findGtClose, if_pos hc]
      constructor
      · intro hs
        have hd : d = 0 := by
          have := Option.some.inj hs; omega
        subst hd
        refine ⟨⟨by simp [hc.1], by simpa using hc.2⟩, ?_⟩
        intro p hp
        exact absurd hp (Nat.not_lt_zero p)
      · rintro ⟨-, hall⟩
        rcases Nat.eq_zero_or_pos d with h0 | h0
        · rw [h0]
        · exfalso
          exact hall 0 h0 ⟨by simp [hc.1], by simpa using hc.2⟩
    · simp only [findGtClose, if_neg hc]
      cases d with
      | zero =>
        constructor
        · intro hs
          rcases Option.map_eq_some'.mp hs with ⟨j, -, hj⟩
          omega
        · rintro ⟨⟨h1, h2⟩, -⟩
          simp only [List.getElem?_cons_zero, Option.some.injEq] at h1
          simp only [List.drop_succ_cons, List.drop_zero] at h2
          exact (hc ⟨h1, h2⟩).elim
      | succ k =>
        constructor
        · intro hs
          rcases Option.map_eq_some'.mp hs with ⟨j, hj, hjk⟩
          have hk : j = k := by omega
          subst hk
          rcases ih.mp hj with ⟨h1, h2⟩
          constructor
          · exact ⟨by simpa using h1.1, by simpa using h1.2⟩
          · intro p hp
            cases p with
            | zero =>
              rintro ⟨g1, g2⟩
              simp only [List.getElem?_cons_zero, Option.some.injEq] at g1
              simp only [List.drop_succ_cons, List.drop_zero] at g2
              exact hc ⟨g1, g2⟩
            | succ q =>
              rintro ⟨g1, g2⟩
              refine h2 q (by omega) ⟨by simpa using g1, by simpa using g2⟩
        · rintro ⟨h1, h2⟩
          have hr : findGtClose r = some k := by
            apply ih.mpr
            constructor
            · exact ⟨by simpa using h1.1, by simpa using h1.2⟩
            · intro q hq
              rintro ⟨g1, g2⟩
              refine h2 (q + 1) (by omega) ⟨by simpa using g1, by simpa using g2⟩
          rw [hr]
          rfl

/-! ### Stability of the capture under insertion at the capture end -/

/-- Prefix tests that fit strictly below the insertion point are not
affected by the insertion. -/
theorem pfx_insertAtL_low {s ins pat : List Char} {e p : Nat}
    (he : e ≤ s.length) (hfit : p + pat.length ≤ e) :
    (pat.isPrefixOf ((insertAtL s e ins).drop p) = true ↔
      pat.isPrefixOf (s.drop p) = true) := by
  have hlen : (s.take e).length = e := by
    simp only [List.length_take]; omega
  have ht : (insertAtL s e ins).drop p
      = (s.take e).drop p ++ (ins ++ s.drop e) := by
    unfold insertAtL
    rw [List.append_assoc]
    exact List.drop_append_of_le_length (by omega)
  have hs2 : s.drop p = (s.take e).drop p ++ s.drop e := by
    conv_lhs => rw [← List.take_append_drop e s]
    exact List.drop_append_of_le_length (by omega)
  have hlen2 : pat.length ≤ ((s.take e).drop p).length := by
    simp only [List.length_drop, hlen]; omega
  rw [ht, hs2, pfx_append_left hlen2, pfx_append_left hlen2]

/-- Characters strictly below the insertion point are unchanged. -/
theorem getElem_insertAtL_low {s ins : List Char} {e p : Nat}
    (he : e ≤ s.length) (hp : p < e) :
    (insertAtL s e ins)[p]? = s[p]? := by
  have hlen : (s.take e).length = e := by
    simp only [List.length_take]; omega
  unfold insertAtL
  rw [List.append_assoc, List.getElem?_append, hlen, if_pos hp,
    List.getElem?_take, if_pos hp]

/-- Dropping past the inserted block yields the original tail. -/
theorem drop_insertAtL_high {s ins : List Char} {e : Nat}
    (he : e ≤ s.length) :
    (insertAtL s e ins).drop (e + ins.length) = s.drop e := by
  have hlen3 : (s.take e ++ ins).length = e + ins.length := by
    simp only [List.length_append, List.length_take]; omega
  unfold insertAtL
  rw [← hlen3]
  exact List.drop_left _ _

/-- Taking up to the end of the inserted block keeps the head plus the
insertion. -/
theorem take_insertAtL_high {s ins : List Char} {e : Nat}
    (he : e ≤ s.length) :
    (insertAtL s e ins).take (e + ins.length) = s.take e ++ ins := by
  have hlen3 : (s.take e ++ ins).length = e + ins.length := by
    simp only [List.length_append, List.length_take]; omega
  unfold insertAtL
  rw [← hlen3]
  exact List.take_left _ _

/-- Master lemma: whatever string is inserted at the end offset of the
capture of `MANIFEST_TAG_CONTENT_REGEX`, re-matching captures the original
content followed verbatim by the inserted string.  This is the property the
source encodes in its `manifest_regex` unit test. -/
theorem manifestCapture_insertAtL {s : List Char} {b e : Nat}
    (hc : manifestCapture s = some (b, e)) (ins : List Char) :
    manifestCapture (insertAtL s e ins) = some (b, e + ins.length) ∧
      sliceL (insertAtL s e ins) b (e + ins.length) = sliceL s b e ++ ins := by
  rcases h1 : findSub openTagChars s with - | i
  · simp only [manifestCapture, h1] at hc
    cases hc
  rcases h2 : findGtClose (s.drop (i + 9)) with - | dj
  · simp only [manifestCapture, h1, h2] at hc
    cases hc
  rcases h3 : findSubLast closeTagChars (s.drop (i + 9 + dj + 1)) with - | dk
  · simp only [manifestCapture, h1, h2, h3] at hc
    cases hc
  simp only [manifestCapture, h1, h2, h3, Option.some.injEq,
    Prod.mk.injEq] at hc
  obtain ⟨hb_eq, he_eq⟩ := hc
  have hcne : closeTagChars ≠ [] := by decide
  have hOpenLen : openTagChars.length = 9 := by decide
  have hCloseLen : closeTagChars.length = 11 := by decide
  have F1 := findSub_eq_some_iff.mp h1
  have F2 := findGtClose_eq_some_iff.mp h2
  have F3 := (findSubLast_eq_some_iff hcne).mp h3
  have hclose_e : closeTagChars.isPrefixOf (s.drop e) = true := by
    have := F3.1
    rw [List.drop_drop] at this
    have harith : i + 9 + dj + 1 + dk = e := by omega
    rw [harith] at this
    exact this
  have heS : e + 11 ≤ s.length := by
    have := pfx_length_le hclose_e
    rw [hCloseLen, List.length_drop] at this
    omega
  have heS2 : e ≤ s.length := by omega
  have hbe : b + 11 ≤ e + 11 := by omega
  -- three transfer results for the mutated string
  have G1 : findSub openTagChars (insertAtL s e ins) = some i := by
    apply findSub_eq_some_iff.mpr
    constructor
    · exact (pfx_insertAtL_low heS2 (by rw [hOpenLen]; omega)).mpr F1.1
    · intro p hp
      have hiff := @pfx_insertAtL_low s ins openTagChars e p
        heS2 (by rw [hOpenLen]; omega : p + openTagChars.length ≤ e)
      have hfalse := F1.2 p hp
      exact Bool.eq_false_iff.mpr
        (fun hT => (Bool.eq_false_iff.mp hfalse) (hiff.mp hT))
  have G2 : findGtClose ((insertAtL s e ins).drop (i + 9)) = some dj := by
    apply findGtClose_eq_some_iff.mpr
    refine ⟨⟨?_, ?_⟩, ?_⟩
    · rw [List.getElem?_drop]
      rw [getElem_insertAtL_low heS2 (by omega : i + 9 + dj < e)]
      have := F2.1.1
      rw [List.getElem?_drop] at this
      exact this
    · rw [List.drop_drop]
      apply occursInB_iff.mpr
      refine ⟨e + ins.length - (i + 9 + (dj + 1)), ?_⟩
      rw [List.drop_drop]
      have harith :
          i + 9 + (dj + 1) + (e + ins.length - (i + 9 + (dj + 1)))
            = e + ins.length := by omega
      rw [harith, drop_insertAtL_high heS2]
      exact hclose_e
    · intro p hp hcond
      apply F2.2 p hp
      obtain ⟨g1, -⟩ := hcond
      constructor
      · rw [List.getElem?_drop] at g1 ⊢
        rw [getElem_insertAtL_low heS2 (by omega : i + 9 + p < e)] at g1
        exact g1
      · rw [List.drop_drop]
        apply occursInB_iff.mpr
        refine ⟨e - (i + 9 + (p + 1)), ?_⟩
        rw [List.drop_drop]
        have harith : i + 9 + (p + 1) + (e - (i + 9 + (p + 1))) = e := by
          omega
        rw [harith]
        exact hclose_e
  have G3 : findSubLast closeTagChars
      ((insertAtL s e ins).drop (i + 9 + dj + 1)) = some (dk + ins.length) := by
    apply (findSubLast_eq_some_iff hcne).mpr
    constructor
    · rw [List.drop_drop]
      have harith : i + 9 + dj + 1 + (dk + ins.length) = e + ins.length := by
        omega
      rw [harith, drop_insertAtL_high heS2]
      exact hclose_e
    · intro p hp
      rw [List.drop_drop]
      have hq1 : i + 9 + dj + 1 + p
          = e + ins.length + (i + 9 + dj + 1 + p - (e + ins.length)) := by
        omega
      rw [hq1, ← List.drop_drop, drop_insertAtL_high heS2, List.drop_drop]
      have hs := F3.2 (dk + (i + 9 + dj + 1 + p - (e + ins.length)))
        (by omega)
      rw [List.drop_drop] at hs
      have harith : i + 9 + dj + 1 + (dk + (i + 9 + dj + 1 + p - (e + ins.length)))
          = e + (i + 9 + dj + 1 + p - (e + ins.length)) := by omega
      rw [harith] at hs
      exact hs
  constructor
  · simp only [manifestCapture, G1, G2, G3, Option.some.injEq, Prod.mk.injEq]
    omega
  · unfold sliceL
    rw [take_insertAtL_high heS2]
    have hlen : (s.take e).length = e := by
      simp only [List.length_take]; omega
    rw [List.drop_append_of_le_length (by omega)]

/-! ### Occurrence counting and absence of self-overlap of an entry -/

/-- Filtering a range by a predicate that holds at exactly one point below
the bound yields a single element. -/
theorem filter_range_unique {n k : Nat} {q : Nat → Bool} (hk : k < n)
    (huniq : ∀ p, q p = true ↔ p = k) :
    ((List.range n).filter q).length = 1 := by
  induction n with
  | zero => omega
  | succ m ih =>
    rw [List.range_succ, List.filter_append, List.length_append]
    by_cases hm : k = m
    · have hnil : (List.range m).filter q = [] := by
        rw [List.filter_eq_nil_iff]
        intro a ha
        have halt := List.mem_range.mp ha
        intro hq
        have := (huniq a).mp hq
        omega
      have hone : List.filter q [m] = [m] := by
        have : q m = true := (huniq m).mpr hm.symm
        simp [List.filter, this]
      rw [hnil, hone]
      rfl
    · have hkm : k < m := by omega
      have hnil : List.filter q [m] = [] := by
        have : q m = false := by
          rcases hq : q m with - | -
          · rfl
          · have := (huniq m).mp hq
            omega
        simp [List.filter, this]
      rw [hnil, ih hkm]
      rfl

/-- Counting form of uniqueness. -/
theorem countOccAll_eq_one {pat s : List Char} {k : Nat}
    (hk : k < s.length + 1)
    (huniq : ∀ p, pat.isPrefixOf (s.drop p) = true ↔ p = k) :
    countOccAll pat s = 1 :=
  filter_range_unique hk huniq

/-- Upper-casing never produces the letter `u`. -/
theorem toUpper_ne_u (c : Char) : Char.toUpper c ≠ 'u' := by
  simp only [Char.toUpper]
  by_cases h : c.toNat ≥ 97 ∧ c.toNat ≤ 122
  · rw [if_pos h]
    intro habs
    have hm : c.toNat - 32 ≥ 65 ∧ c.toNat - 32 ≤ 90 := by omega
    set m := c.toNat - 32 with hmdef
    have h65 : 65 ≤ m := hm.1
    have h90 : m ≤ 90 := hm.2
    interval_cases m <;> exact absurd habs (by decide)
  · rw [if_neg h]
    intro habs
    subst habs
    exact h (by decide)

/-- Index decomposition of a permission entry. -/
theorem permissionEntry_getElem (perm : String) (q : Nat) :
    (permissionEntry perm)[q]? =
      if q < 50 then entryPrefixChars[q]?
      else if q - 50 < (perm.data.map Char.toUpper).length then
        (perm.data.map Char.toUpper)[q - 50]?
      else entryTailChars[q - 50 - (perm.data.map Char.toUpper).length]? := by
  have h50 : entryPrefixChars.length = 50 := by decide
  unfold permissionEntry
  rw [List.append_assoc, List.getElem?_append, h50]
  by_cases hq : q < 50
  · rw [if_pos hq, if_pos hq]
  · rw [if_neg hq, if_neg hq, List.getElem?_append]

/-- Length of a permission entry. -/
theorem permissionEntry_length (perm : String) :
    (permissionEntry perm).length = 53 + (perm.data.map Char.toUpper).length := by
  have h50 : entryPrefixChars.length = 50 := by decide
  have h3 : entryTailChars.length = 3 := by decide
  unfold permissionEntry
  rw [List.length_append, List.length_append, h50, h3]
  omega

/-- Permission entries have no non-trivial border: no proper non-empty
suffix of an entry is also a prefix of it.  The fixed entry head starts
with `<`, which recurs nowhere in the fixed head, the upper-cased name
cannot contain the lower-case `u` demanded at offset 1, and the fixed tail
contains neither `<` nor `u`. -/
theorem permissionEntry_no_border (perm : String) {d : Nat}
    (hd1 : 1 ≤ d) (hd2 : d < (permissionEntry perm).length)
    (hbord : (permissionEntry perm).drop d
      = (permissionEntry perm).take ((permissionEntry perm).length - d)) :
    False := by
  have hElen : (permissionEntry perm).length
      = 53 + (perm.data.map Char.toUpper).length := permissionEntry_length perm
  have hE0 : (permissionEntry perm)[0]? = some '<' := by
    rw [permissionEntry_getElem, if_pos (by omega : (0 : Nat) < 50)]
    decide
  have hE1 : (permissionEntry perm)[1]? = some 'u' := by
    rw [permissionEntry_getElem, if_pos (by omega : (1 : Nat) < 50)]
    decide
  have hEd : (permissionEntry perm)[d]? = some '<' := by
    have h0 := congrArg (fun l => l[0]?) hbord
    simp only at h0
    rw [List.getElem?_drop, List.getElem?_take,
      if_pos (by omega : 0 < (permissionEntry perm).length - d)] at h0
    rw [hE0] at h0
    simpa using h0
  have hdP : 50 ≤ d ∧ d - 50 < (perm.data.map Char.toUpper).length := by
    rw [permissionEntry_getElem] at hEd
    by_cases hq : d < 50
    · rw [if_pos hq] at hEd
      exfalso
      have hno : ∀ q, q < 50 → 1 ≤ q → entryPrefixChars[q]? ≠ some '<' := by
        decide
      exact hno d hq hd1 hEd
    · rw [if_neg hq] at hEd
      by_cases hq2 : d - 50 < (perm.data.map Char.toUpper).length
      · exact ⟨by omega, hq2⟩
      · rw [if_neg hq2] at hEd
        exfalso
        have hidx : d - 50 - (perm.data.map Char.toUpper).length < 3 := by
          omega
        have hno : ∀ q, q < 3 → entryTailChars[q]? ≠ some '<' := by decide
        exact hno _ hidx hEd
  have hEd1 : (permissionEntry perm)[d + 1]? = some 'u' := by
    have h1 := congrArg (fun l => l[1]?) hbord
    simp only at h1
    rw [List.getElem?_drop, List.getElem?_take,
      if_pos (by omega : 1 < (permissionEntry perm).length - d)] at h1
    rw [hE1] at h1
    exact h1
  rw [permissionEntry_getElem, if_neg (by omega : ¬ d + 1 < 50)] at hEd1
  by_cases hq2 : d + 1 - 50 < (perm.data.map Char.toUpper).length
  · rw [if_pos hq2, List.getElem?_map] at hEd1
    rcases Option.map_eq_some'.mp hEd1 with ⟨c, -, hcu⟩
    exact toUpper_ne_u c hcu
  · rw [if_neg hq2] at hEd1
    have hidx : d + 1 - 50 - (perm.data.map Char.toUpper).length < 3 := by
      omega
    have hno : ∀ q, q < 3 → entryTailChars[q]? ≠ some 'u' := by decide
    exact hno _ hidx hEd1

/-- When the entry does not occur in `tc`, the only occurrence of the entry
in `tc ++ entry` is the final one. -/
theorem permissionEntry_occurrence_unique {tc : List Char} (perm : String)
    (htc : occursInB (permissionEntry perm) tc = false) :
    ∀ p, (permissionEntry perm).isPrefixOf
        ((tc ++ permissionEntry perm).drop p) = true ↔ p = tc.length := by
  intro p
  have hElen : (permissionEntry perm).length
      = 53 + (perm.data.map Char.toUpper).length := permissionEntry_length perm
  constructor
  · intro hp
    have hlenle := pfx_length_le hp
    rw [List.length_drop, List.length_append] at hlenle
    have hple : p ≤ tc.length := by omega
    rcases Nat.lt_or_ge p tc.length with hlt | hge
    · exfalso
      have hdropp : (tc ++ permissionEntry perm).drop p
          = tc.drop p ++ permissionEntry perm :=
        List.drop_append_of_le_length (by omega)
      by_cases hfit : p + (permissionEntry perm).length ≤ tc.length
      · have hin : (permissionEntry perm).isPrefixOf (tc.drop p) = true := by
          have hlen2 : (permissionEntry perm).length ≤ (tc.drop p).length := by
            rw [List.length_drop]; omega
          rw [hdropp] at hp
          exact (pfx_append_left hlen2).mp hp
        have : occursInB (permissionEntry perm) tc = true :=
          occursInB_iff.mpr ⟨p, hin⟩
        rw [htc] at this
        cases this
      · have hd1 : 1 ≤ tc.length - p := by omega
        have hd2 : tc.length - p < (permissionEntry perm).length := by omega
        apply permissionEntry_no_border perm hd1 hd2
        rw [hdropp, pfx_iff_take] at hp
        have hlend : (tc.drop p).length = tc.length - p := by
          rw [List.length_drop]
        have hsplit : (permissionEntry perm).length
            = (tc.drop p).length
              + ((permissionEntry perm).length - (tc.length - p)) := by
          omega
        rw [hsplit, List.take_append] at hp
        have hdrop := congrArg (List.drop (tc.drop p).length) hp
        simp only at hdrop
        rw [List.drop_left] at hdrop
        rw [hlend] at hdrop
        exact hdrop.symm
    · omega
  · intro hp
    subst hp
    rw [List.drop_left tc (permissionEntry perm)]
    exact pfx_iff_take.mpr (List.take_length _)

/-- Inserting the entry at the end of the content makes it occur there. -/
theorem occursInB_append_self {tc E : List Char} :
    occursInB E (tc ++ E) = true :=
  occursInB_iff.mpr ⟨tc.length, by
    rw [List.drop_left tc E]
    exact pfx_iff_take.mpr (List.take_length _)⟩

/-- C2 (corrected): on every manifest whose root element the pattern
locates, inserting a permission succeeds, a second insertion of the same
permission is a no-op, and when the constructed entry was not already
present in the captured root-element content the result contains the entry
at exactly one position of the new root-element content.  (The original
claim demanded exactly one occurrence for every manifest; a manifest that
already contains the entry twice keeps both, see the counterexample.) -/
theorem add_uses_permission_entry_idempotent (s : List Char) (perm : String)
    {b e : Nat} (hc : manifestCapture s = some (b, e)) :
    ∃ m1, add_uses_permission_entry s perm = some m1 ∧
      add_uses_permission_entry m1 perm = some m1 ∧
      (occursInB (permissionEntry perm) (sliceL s b e) = false →
        ∃ p q, manifestCapture m1 = some (p, q) ∧
          countOccAll (permissionEntry perm) (sliceL m1 p q) = 1) := by
  by_cases hocc : occursInB (permissionEntry perm) (sliceL s b e) = true
  · refine ⟨s, ?_, ?_, ?_⟩
    · simp [add_uses_permission_entry, hc, hocc]
    · simp [add_uses_permission_entry, hc, hocc]
    · intro hfalse
      rw [hocc] at hfalse
      cases hfalse
  · have hocc' : occursInB (permissionEntry perm) (sliceL s b e) = false :=
      Bool.eq_false_iff.mpr hocc
    obtain ⟨hcap2, hslice2⟩ := manifestCapture_insertAtL hc (permissionEntry perm)
    refine ⟨insertAtL s e (permissionEntry perm), ?_, ?_, ?_⟩
    · simp [add_uses_permission_entry, hc, hocc']
    · have hocc2 : occursInB (permissionEntry perm)
          (sliceL (insertAtL s e (permissionEntry perm)) b
            (e + (permissionEntry perm).length)) = true := by
        rw [hslice2]
        exact occursInB_append_self
      simp [add_uses_permission_entry, hcap2, hocc2]
    · rintro -
      refine ⟨b, e + (permissionEntry perm).length, hcap2, ?_⟩
      rw [hslice2]
      apply @countOccAll_eq_one (permissionEntry perm)
        (sliceL s b e ++ permissionEntry perm) (sliceL s b e).length
      · rw [List.length_append]
        have := permissionEntry_length perm
        omega
      · exact permissionEntry_occurrence_unique perm hocc'

/-! ### Claim theorems -/

/-- C2 counterexample: on a manifest whose root-element content already
holds the constructed entry twice, running the insertion twice is a double
no-op and leaves two occurrences in the captured content, not exactly
one. -/
theorem add_uses_permission_entry_two_occurrences :
    manifestCapture c2Manifest
      = some (10, 10 + 2 * (permissionEntry "internet").length) ∧
    add_uses_permission_entry c2Manifest "internet" = some c2Manifest ∧
    countOccAll (permissionEntry "internet")
      (sliceL c2Manifest 10 (10 + 2 * (permissionEntry "internet").length))
      = 2 := by
  set_option maxRecDepth 10000 in decide

/-- C2 witness: the amended statement applied to a concrete fresh
manifest. -/
theorem add_uses_permission_entry_idempotent_witness :
    ∃ m1, add_uses_permission_entry "<manifest>\n</manifest>".data "internet"
        = some m1 ∧
      add_uses_permission_entry m1 "internet" = some m1 ∧
      (occursInB (permissionEntry "internet")
          (sliceL "<manifest>\n</manifest>".data 10 11) = false →
        ∃ p q, manifestCapture m1 = some (p, q) ∧
          countOccAll (permissionEntry "internet") (sliceL m1 p q) = 1) :=
  add_uses_permission_entry_idempotent "<manifest>\n</manifest>".data "internet"
    (by decide)

/-- C3 (confirmed): on `<manifest a\n b>\nX\n</manifest>` the pattern
captures exactly `\nX\n` (positions 15 to 18), and for every string
inserted at the end offset 18 of that capture, re-matching captures exactly
the original content followed verbatim by the inserted string. -/
theorem manifest_regex_insert_scenario :
    manifestCapture "<manifest a\n b>\nX\n</manifest>".data = some (15, 18) ∧
    sliceL "<manifest a\n b>\nX\n</manifest>".data 15 18 = "\nX\n".data ∧
    ∀ ins : List Char,
      manifestCapture (insertAtL "<manifest a\n b>\nX\n</manifest>".data 18 ins)
          = some (15, 18 + ins.length) ∧
        sliceL (insertAtL "<manifest a\n b>\nX\n</manifest>".data 18 ins) 15
            (18 + ins.length)
          = "\nX\n".data ++ ins := by
  refine ⟨by decide, by decide, ?_⟩
  intro ins
  have h := manifestCapture_insertAtL
    (by decide : manifestCapture "<manifest a\n b>\nX\n</manifest>".data
      = some (15, 18)) ins
  refine ⟨h.1, ?_⟩
  rw [h.2]
  have hior : sliceL "<manifest a\n b>\nX\n</manifest>".data 15 18
      = "\nX\n".data := by decide
  rw [hior]

/-- C4 (confirmed): the mapper returns exactly the four documented
mappings, and every other input hits the `panic!` arm (no fallback). -/
theorem get_target_android_name_table :
    get_target_android_name "aarch64-linux-android" = some "arm64-v8a" ∧
    get_target_android_name "armv7-linux-androideabi" = some "armeabi-v7a" ∧
    get_target_android_name "i686-linux-android" = some "x86" ∧
    get_target_android_name "x86_64-linux-android" = some "x86_64" ∧
    ∀ s : String, s ≠ "aarch64-linux-android" →
      s ≠ "armv7-linux-androideabi" → s ≠ "i686-linux-android" →
      s ≠ "x86_64-linux-android" → get_target_android_name s = none := by
  refine ⟨rfl, rfl, rfl, rfl, ?_⟩
  intro s h1 h2 h3 h4
  simp [get_target_android_name, h1, h2, h3, h4]

/-- C4 witness: a concrete unmapped target is fatal. -/
theorem get_target_android_name_table_witness :
    get_target_android_name "mips64-linux-android" = none :=
  get_target_android_name_table.2.2.2.2 "mips64-linux-android"
    (by decide) (by decide) (by decide) (by decide)

/-- C5 (confirmed): credential resolution of the signing pipeline.  With a
supplied keystore path a missing password is fatal and supplied values are
used verbatim; without one the conventional path inside the release output
directory is used, `keytool` runs (fixed placeholder subject, fixed store
password, RSA, 2048 bits, 10000 days validity) exactly when no keystore
file exists there, an existing file is reused, and the resolved password is
the reference string `pass:android`, not the raw text `android`. -/
theorem resolveKeyCredential_spec :
    (∀ ke kt rd f, resolveKeyCredential ke kt rd (some f) none
        = ([], .error .needKeystorePassword)) ∧
    (∀ ke kt rd f p, resolveKeyCredential ke kt rd (some f) (some p)
        = ([], .ok (f, p))) ∧
    (∀ kt rd kp, resolveKeyCredential true kt rd none kp
        = ([], .ok (conventionalKeystorePath rd, "pass:android"))) ∧
    (∀ rd kp, resolveKeyCredential false true rd none kp
        = ([Event.keytoolGen
              "CN=Unknown, OU=Unknown, O=Unknown, L=Unknown, S=Unknown, C=Unknown"
              "android" (conventionalKeystorePath rd) "RSA" 2048 10000],
            .ok (conventionalKeystorePath rd, "pass:android"))) ∧
    (∀ rd kp, resolveKeyCredential false false rd none kp
        = ([Event.keytoolGen
              "CN=Unknown, OU=Unknown, O=Unknown, L=Unknown, S=Unknown, C=Unknown"
              "android" (conventionalKeystorePath rd) "RSA" 2048 10000],
            .error .keytoolFailed)) ∧
    "pass:android" = "pass:" ++ "android" ∧ "pass:android" ≠ "android" := by
  refine ⟨?_, ?_, ?_, ?_, ?_, by decide, by decide⟩
  · intro ke kt rd f; rfl
  · intro ke kt rd f p; rfl
  · intro kt rd kp; rfl
  · intro rd kp; rfl
  · intro rd kp; rfl

/-- C8 (confirmed): a metadata document without a `package_name` entry
under `package.metadata.android` resolves the application id to the
placeholder `org.libsdl.app`, and one without a `title` entry resolves the
display name to `Untitled`; both resolutions are total functions of the
document (no error case). -/
theorem metadata_identity_defaults :
    (∀ root : List (String × TomlValue),
      get_toml_entry root ["package", "metadata", "android", "package_name"]
          = none →
        get_android_app_id root = "org.libsdl.app") ∧
    (∀ root : List (String × TomlValue),
      get_toml_entry root ["package", "metadata", "android", "title"] = none →
        get_android_app_name root = "Untitled") := by
  constructor
  · intro root h
    simp [get_android_app_id, get_toml_string, h]
  · intro root h
    simp [get_android_app_name, get_toml_string, h]

/-- C8 witness: the empty metadata document yields both defaults. -/
theorem metadata_identity_defaults_witness :
    get_android_app_id [] = "org.libsdl.app" ∧
      get_android_app_name [] = "Untitled" :=
  ⟨metadata_identity_defaults.1 [] rfl, metadata_identity_defaults.2 [] rfl⟩

/-! ### Trace lemmas for the project-creation loops -/

/-- Events already accumulated survive the permission loop. -/
theorem permissionLoop_acc_sub {ps : List String} {content : List Char}
    {acc : List Event} {x : Event} (hx : x ∈ acc) :
    x ∈ (permissionLoop ps content acc).1 := by
  induction ps generalizing content acc with
  | nil => exact hx
  | cons p rest ih =>
    rcases ha : add_uses_permission_entry content p with - | c2
    · simp only [permissionLoop, ha]
      exact hx
    · simp only [permissionLoop, ha]
      exact ih (by simp [hx])

/-- Events produced by the permission loop are the accumulated ones plus
permission events. -/
theorem permissionLoop_mem {ps : List String} {content : List Char}
    {acc : List Event} {x : Event}
    (hx : x ∈ (permissionLoop ps content acc).1) :
    x ∈ acc ∨ ∃ p, x = Event.addPermission p := by
  induction ps generalizing content acc with
  | nil => exact Or.inl hx
  | cons p rest ih =>
    rcases ha : add_uses_permission_entry content p with - | c2
    · simp only [permissionLoop, ha] at hx
      exact Or.inl hx
    · simp only [permissionLoop, ha] at hx
      rcases ih hx with h | h
      · rcases List.mem_append.mp h with h2 | h2
        · exact Or.inl h2
        · exact Or.inr ⟨p, by simpa using h2⟩
      · exact Or.inr h

/-- Events already accumulated survive the placement loop. -/
theorem placeLoop_acc_sub {arts : List (String × String)} {acc : List Event}
    {x : Event} (hx : x ∈ acc) : x ∈ (placeLoop arts acc).1 := by
  induction arts generalizing acc with
  | nil => exact hx
  | cons ta rest ih =>
    rcases ta with ⟨t, a⟩
    rcases hn : get_target_android_name t with - | an
    · simp only [placeLoop, hn]
      exact hx
    · simp only [placeLoop, hn]
      exact ih (by simp [hx])

/-- Events produced by the placement loop are the accumulated ones plus
placement events. -/
theorem placeLoop_mem {arts : List (String × String)} {acc : List Event}
    {x : Event} (hx : x ∈ (placeLoop arts acc).1) :
    x ∈ acc ∨ ∃ t n, x = Event.placeArtifact t n := by
  induction arts generalizing acc with
  | nil => exact Or.inl hx
  | cons ta rest ih =>
    rcases ta with ⟨t, a⟩
    rcases hn : get_target_android_name t with - | an
    · simp only [placeLoop, hn] at hx
      exact Or.inl hx
    · simp only [placeLoop, hn] at hx
      rcases ih hx with h | h
      · rcases List.mem_append.mp h with h2 | h2
        · exact Or.inl h2
        · exact Or.inr ⟨t, an, by simpa using h2⟩
      · exact Or.inr h

/-- Placement fails whenever some pair carries an unknown target. -/
theorem placeLoop_err_of_unknown {arts : List (String × String)}
    {acc : List Event}
    (h : ∃ ta ∈ arts, get_target_android_name ta.1 = none) :
    (placeLoop arts acc).2.isSome = true := by
  induction arts generalizing acc with
  | nil =>
    rcases h with ⟨ta, hmem, -⟩
    cases hmem
  | cons hd rest ih =>
    rcases hd with ⟨t, a⟩
    rcases hn : get_target_android_name t with - | an
    · simp only [placeLoop, hn]
      rfl
    · simp only [placeLoop, hn]
      apply ih
      rcases h with ⟨ta, hmem, hta⟩
      rcases List.mem_cons.mp hmem with heq | hmem2
      · exfalso
        rw [heq] at hta
        simp only at hta
        rw [hn] at hta
        cases hta
      · exact ⟨ta, hmem2, hta⟩

/-- Equation: a failing permission loop aborts the creation with its
events. -/
theorem create_eq_permFail {w : World} {root : List (String × TomlValue)}
    {arts : List (String × String)} {evs1 : List Event} {c1 : List Char}
    {msg : PanicMsg}
    (hpl : permissionLoop (get_android_permissions root)
      (manifestAfterRewrite w.templateManifest (get_android_app_id root))
      (templEvents (get_android_app_id root)) = (evs1, c1, some msg)) :
    create_android_project w root arts = (evs1, some msg) := by
  unfold create_android_project
  rw [hpl]

/-- Equation: a failing placement loop aborts the creation with its
events. -/
theorem create_eq_placeFail {w : World} {root : List (String × TomlValue)}
    {arts : List (String × String)} {evs1 : List Event} {c1 : List Char}
    {evs3 : List Event} {msg : PanicMsg}
    (hpl : permissionLoop (get_android_permissions root)
      (manifestAfterRewrite w.templateManifest (get_android_app_id root))
      (templEvents (get_android_app_id root)) = (evs1, c1, none))
    (hpl2 : placeLoop arts
      (linkStep w.sdlJniLinkExists (evs1 ++ [Event.removeCSources]))
      = (evs3, some msg)) :
    create_android_project w root arts = (evs3, some msg) := by
  unfold create_android_project
  rw [hpl]
  simp only
  rw [hpl2]

/-- Equation: the successful creation trace. -/
theorem create_eq_success {w : World} {root : List (String × TomlValue)}
    {arts : List (String × String)} {evs1 : List Event} {c1 : List Char}
    {evs3 : List Event}
    (hpl : permissionLoop (get_android_permissions root)
      (manifestAfterRewrite w.templateManifest (get_android_app_id root))
      (templEvents (get_android_app_id root)) = (evs1, c1, none))
    (hpl2 : placeLoop arts
      (linkStep w.sdlJniLinkExists (evs1 ++ [Event.removeCSources]))
      = (evs3, none)) :
    create_android_project w root arts
      = (evs3 ++ iconEvents (get_android_app_icon root), none) := by
  unfold create_android_project
  rw [hpl]
  simp only
  rw [hpl2]

/-- Every event of a `create_android_project` trace is a project-creation
event: never a signing-pipeline or gradle invocation, and the symlink
event only when the slot was not already a directory. -/
theorem create_android_project_event_facts {w : World}
    {root : List (String × TomlValue)} {arts : List (String × String)}
    {x : Event} (hx : x ∈ (create_android_project w root arts).1) :
    isSignEvent x = false ∧ isZipalignEvent x = false ∧
      isApksignerEvent x = false ∧
      (w.sdlJniLinkExists = true → x ≠ Event.linkSDL) ∧
      (∀ task, x ≠ Event.gradle task) := by
  rcases hpl : permissionLoop (get_android_permissions root)
      (manifestAfterRewrite w.templateManifest (get_android_app_id root))
      (templEvents (get_android_app_id root)) with ⟨evs1, content1, err1⟩
  have hml : ∀ y : Event, y ∈ evs1 →
      isSignEvent y = false ∧ isZipalignEvent y = false ∧
        isApksignerEvent y = false ∧
        (w.sdlJniLinkExists = true → y ≠ Event.linkSDL) ∧
        (∀ task, y ≠ Event.gradle task) := by
    intro y hy
    have hy1 : y ∈ (permissionLoop (get_android_permissions root)
        (manifestAfterRewrite w.templateManifest (get_android_app_id root))
        (templEvents (get_android_app_id root))).1 := by
      rw [hpl]; exact hy
    rcases permissionLoop_mem hy1 with h | ⟨p, hp⟩
    · simp only [templEvents, List.mem_cons, List.not_mem_nil, or_false] at h
      rcases h with h | h | h | h | h <;> subst h <;>
        exact ⟨rfl, rfl, rfl, fun _ => by simp, fun _ => by simp⟩
    · subst hp
      exact ⟨rfl, rfl, rfl, fun _ => by simp, fun _ => by simp⟩
  cases err1 with
  | some msg =>
    rw [create_eq_permFail hpl] at hx
    exact hml x hx
  | none =>
    rcases hpl2 : placeLoop arts
        (linkStep w.sdlJniLinkExists (evs1 ++ [Event.removeCSources]))
      with ⟨evs3, err3⟩
    have hacc : ∀ y : Event,
        y ∈ linkStep w.sdlJniLinkExists (evs1 ++ [Event.removeCSources]) →
        isSignEvent y = false ∧ isZipalignEvent y = false ∧
          isApksignerEvent y = false ∧
          (w.sdlJniLinkExists = true → y ≠ Event.linkSDL) ∧
          (∀ task, y ≠ Event.gradle task) := by
      intro y hy
      unfold linkStep at hy
      by_cases hl : w.sdlJniLinkExists
      · rw [if_pos hl] at hy
        rcases List.mem_append.mp hy with h | h
        · exact hml y h
        · simp only [List.mem_singleton] at h
          subst h
          exact ⟨rfl, rfl, rfl, fun _ => by simp, fun _ => by simp⟩
      · rw [if_neg hl] at hy
        rcases List.mem_append.mp hy with h | h
        · rcases List.mem_append.mp h with h2 | h2
          · exact hml y h2
          · simp only [List.mem_singleton] at h2
            subst h2
            exact ⟨rfl, rfl, rfl, fun _ => by simp, fun _ => by simp⟩
        · simp only [List.mem_singleton] at h
          subst h
          refine ⟨rfl, rfl, rfl, fun hcontra => ?_, fun _ => by simp⟩
          rw [hcontra] at hl
          exact absurd rfl hl
    have hmem3 : ∀ y : Event, y ∈ evs3 →
        isSignEvent y = false ∧ isZipalignEvent y = false ∧
          isApksignerEvent y = false ∧
          (w.sdlJniLinkExists = true → y ≠ Event.linkSDL) ∧
          (∀ task, y ≠ Event.gradle task) := by
      intro y hy
      have hy1 : y ∈ (placeLoop arts
          (linkStep w.sdlJniLinkExists (evs1 ++ [Event.removeCSources]))).1 := by
        rw [hpl2]; exact hy
      rcases placeLoop_mem hy1 with h | ⟨t, n, hp⟩
      · exact hacc y h
      · subst hp
        exact ⟨rfl, rfl, rfl, fun _ => by simp, fun _ => by simp⟩
    cases err3 with
    | some msg =>
      rw [create_eq_placeFail hpl hpl2] at hx
      exact hmem3 x hx
    | none =>
      rw [create_eq_success hpl hpl2] at hx
      rcases List.mem_append.mp hx with h | h
      · exact hmem3 x h
      · rcases hic : get_android_app_icon root with - | ic
        · unfold iconEvents at h
          rw [hic] at h
          cases h
        · unfold iconEvents at h
          rw [hic] at h
          simp only at h
          rcases List.mem_map.mp h with ⟨r, -, hr⟩
          rw [← hr]
          exact ⟨rfl, rfl, rfl, fun _ => by simp, fun _ => by simp⟩

/-- Template and rewrite events always appear in the trace. -/
theorem create_android_project_templ_mem {w : World}
    {root : List (String × TomlValue)} {arts : List (String × String)}
    {x : Event} (hx : x ∈ templEvents (get_android_app_id root)) :
    x ∈ (create_android_project w root arts).1 := by
  rcases hpl : permissionLoop (get_android_permissions root)
      (manifestAfterRewrite w.templateManifest (get_android_app_id root))
      (templEvents (get_android_app_id root)) with ⟨evs1, content1, err1⟩
  have h1 : x ∈ evs1 := by
    have h2 := @permissionLoop_acc_sub (get_android_permissions root)
      (manifestAfterRewrite w.templateManifest (get_android_app_id root))
      (templEvents (get_android_app_id root)) x hx
    rw [hpl] at h2
    exact h2
  cases err1 with
  | some msg =>
    rw [create_eq_permFail hpl]
    exact h1
  | none =>
    rcases hpl2 : placeLoop arts
        (linkStep w.sdlJniLinkExists (evs1 ++ [Event.removeCSources]))
      with ⟨evs3, err3⟩
    have h3 : x ∈ evs3 := by
      have hacc : x ∈ linkStep w.sdlJniLinkExists (evs1 ++ [Event.removeCSources]) := by
        unfold linkStep
        by_cases hl : w.sdlJniLinkExists
        · rw [if_pos hl]
          exact List.mem_append.mpr (Or.inl h1)
        · rw [if_neg hl]
          exact List.mem_append.mpr (Or.inl (List.mem_append.mpr (Or.inl h1)))
      have h4 := @placeLoop_acc_sub arts _ _ hacc
      rw [hpl2] at h4
      exact h4
    cases err3 with
    | some msg =>
      rw [create_eq_placeFail hpl hpl2]
      exact h3
    | none =>
      rw [create_eq_success hpl hpl2]
      exact List.mem_append.mpr (Or.inl h3)

/-- On a successful run with a free symlink slot, the link event happens. -/
theorem create_android_project_link_mem {w : World}
    {root : List (String × TomlValue)} {arts : List (String × String)}
    (hflag : w.sdlJniLinkExists = false)
    (hsucc : (create_android_project w root arts).2 = none) :
    Event.linkSDL ∈ (create_android_project w root arts).1 := by
  rcases hpl : permissionLoop (get_android_permissions root)
      (manifestAfterRewrite w.templateManifest (get_android_app_id root))
      (templEvents (get_android_app_id root)) with ⟨evs1, content1, err1⟩
  cases err1 with
  | some msg =>
    rw [create_eq_permFail hpl] at hsucc
    cases hsucc
  | none =>
    rcases hpl2 : placeLoop arts
        (linkStep w.sdlJniLinkExists (evs1 ++ [Event.removeCSources]))
      with ⟨evs3, err3⟩
    have h3 : Event.linkSDL ∈ evs3 := by
      have hacc : Event.linkSDL
          ∈ linkStep w.sdlJniLinkExists (evs1 ++ [Event.removeCSources]) := by
        unfold linkStep
        rw [hflag]
        simp
      have h4 := @placeLoop_acc_sub arts _ _ hacc
      rw [hpl2] at h4
      exact h4
    cases err3 with
    | some msg =>
      rw [create_eq_placeFail hpl hpl2] at hsucc
      cases hsucc
    | none =>
      rw [create_eq_success hpl hpl2]
      exact List.mem_append.mpr (Or.inl h3)

/-- C9 (confirmed): the dependency-linking step is guarded by the existence
check: when the slot is already a directory no link event ever happens, and
on a successful run with a free slot the link event does happen. -/
theorem create_android_project_symlink_idempotent :
    (∀ w root arts, w.sdlJniLinkExists = true →
      Event.linkSDL ∉ (create_android_project w root arts).1) ∧
    (∀ w root arts, w.sdlJniLinkExists = false →
      (create_android_project w root arts).2 = none →
      Event.linkSDL ∈ (create_android_project w root arts).1) := by
  constructor
  · intro w root arts hflag hmem
    exact (create_android_project_event_facts hmem).2.2.2.1 hflag rfl
  · intro w root arts hflag hsucc
    exact create_android_project_link_mem hflag hsucc

/-- C9 witness: concrete runs of both halves. -/
theorem create_android_project_symlink_idempotent_witness :
    Event.linkSDL ∉ (create_android_project wLinked [] []).1 ∧
      Event.linkSDL ∈ (create_android_project w0 [] []).1 :=
  ⟨create_android_project_symlink_idempotent.1 wLinked [] [] rfl,
   create_android_project_symlink_idempotent.2 w0 [] [] rfl (by decide)⟩

/-- A list with a non-string element maps to `none` under the string
collection. -/
theorem collectStrings_eq_none {l : List TomlValue} {v : TomlValue}
    (hv : v ∈ l) (hnv : toStrOpt v = none) : collectStrings l = none := by
  induction l with
  | nil => cases hv
  | cons a as ih =>
    rcases List.mem_cons.mp hv with h | h
    · subst h
      simp [collectStrings, hnv]
    · rcases ha : toStrOpt a with - | sa
      · simp [collectStrings, ha]
      · simp [collectStrings, ha, ih h]

/-- C10 (confirmed): when the permissions entry resolves to a list with at
least one non-string element, the whole list resolves to absent, the
default empty list is used, and no permission entry at all is inserted
(also not for the string elements), with no error from this resolution. -/
theorem permissions_non_string_element_drops_list :
    ∀ (root : List (String × TomlValue)) (vs : List TomlValue) (v : TomlValue),
      get_toml_entry root ["package", "metadata", "android", "permissions"]
          = some (TomlValue.arr vs) →
      v ∈ vs → toStrOpt v = none →
      get_toml_string_vec root ["package", "metadata", "android", "permissions"]
          = none ∧
        get_android_permissions root = [] ∧
        ∀ w arts p, Event.addPermission p ∉ (create_android_project w root arts).1 := by
  intro root vs v hentry hv hnv
  have h1 : get_toml_string_vec root
      ["package", "metadata", "android", "permissions"] = none := by
    simp only [get_toml_string_vec, hentry]
    exact collectStrings_eq_none hv hnv
  have h2 : get_android_permissions root = [] := by
    simp [get_android_permissions, h1]
  refine ⟨h1, h2, ?_⟩
  intro w arts p hmem
  have hpl : permissionLoop (get_android_permissions root)
      (manifestAfterRewrite w.templateManifest (get_android_app_id root))
      (templEvents (get_android_app_id root))
      = (templEvents (get_android_app_id root),
         manifestAfterRewrite w.templateManifest (get_android_app_id root),
         none) := by
    rw [h2]
    rfl
  rcases hpl2 : placeLoop arts
      (linkStep w.sdlJniLinkExists
        (templEvents (get_android_app_id root) ++ [Event.removeCSources]))
    with ⟨evs3, err3⟩
  have hmem3 : ∀ y : Event, y ∈ evs3 → y ≠ Event.addPermission p := by
    intro y hy
    have hy1 : y ∈ (placeLoop arts
        (linkStep w.sdlJniLinkExists
          (templEvents (get_android_app_id root) ++ [Event.removeCSources]))).1 := by
      rw [hpl2]; exact hy
    rcases placeLoop_mem hy1 with h | ⟨t, n, hpy⟩
    · unfold linkStep at h
      have hbase : ∀ z : Event,
          z ∈ templEvents (get_android_app_id root) ++ [Event.removeCSources] →
          z ≠ Event.addPermission p := by
        intro z hz
        rcases List.mem_append.mp hz with hz2 | hz2
        · simp only [templEvents, List.mem_cons, List.not_mem_nil,
            or_false] at hz2
          rcases hz2 with h3 | h3 | h3 | h3 | h3 <;> subst h3 <;> simp
        · simp only [List.mem_singleton] at hz2
          subst hz2
          simp
      by_cases hl : w.sdlJniLinkExists
      · rw [if_pos hl] at h
        exact hbase y h
      · rw [if_neg hl] at h
        rcases List.mem_append.mp h with h2 | h2
        · exact hbase y h2
        · simp only [List.mem_singleton] at h2
          subst h2
          simp
    · subst hpy
      simp
  cases err3 with
  | some msg =>
    rw [create_eq_placeFail hpl hpl2] at hmem
    exact hmem3 _ hmem rfl
  | none =>
    rw [create_eq_success hpl hpl2] at hmem
    rcases List.mem_append.mp hmem with h | h
    · exact hmem3 _ h rfl
    · rcases hic : get_android_app_icon root with - | ic
      · unfold iconEvents at h
        rw [hic] at h
        cases h
      · unfold iconEvents at h
        rw [hic] at h
        simp only at h
        rcases List.mem_map.mp h with ⟨r, -, hr⟩
        cases hr

/-- C10 witness: the concrete mixed list resolves to no permissions and no
insertion events. -/
theorem permissions_non_string_element_drops_list_witness :
    get_toml_string_vec c10Root
        ["package", "metadata", "android", "permissions"] = none ∧
      get_android_permissions c10Root = [] ∧
      ∀ w arts p, Event.addPermission p
        ∉ (create_android_project w c10Root arts).1 :=
  permissions_non_string_element_drops_list c10Root
    [TomlValue.str "camera", TomlValue.other] TomlValue.other rfl
    (List.Mem.tail _ (List.Mem.head _)) rfl

/-! ### Sort lemmas for tool-version selection -/

/-- Reflexivity of the lexicographic comparison. -/
theorem strLeB_refl (a : List Char) : strLeB a a = true := by
  induction a with
  | nil => rfl
  | cons c r ih => simp [strLeB, ih]

/-- Totality of the lexicographic comparison. -/
theorem strLeB_total (a b : List Char) :
    strLeB a b = true ∨ strLeB b a = true := by
  induction a generalizing b with
  | nil => exact Or.inl rfl
  | cons c r ih =>
    cases b with
    | nil => exact Or.inr rfl
    | cons d s =>
      by_cases h1 : c.toNat < d.toNat
      · exact Or.inl (by simp [strLeB, h1])
      · by_cases h2 : d.toNat < c.toNat
        · exact Or.inr (by simp [strLeB, h2])
        · rcases ih s with h | h
          · exact Or.inl (by simp [strLeB, h1, h2, h])
          · exact Or.inr (by simp [strLeB, h1, h2, h])

/-- Transitivity of the lexicographic comparison. -/
theorem strLeB_trans {a b c : List Char} (hab : strLeB a b = true)
    (hbc : strLeB b c = true) : strLeB a c = true := by
  induction a generalizing b c with
  | nil => rfl
  | cons x as ih =>
    cases b with
    | nil => simp [strLeB] at hab
    | cons y bs =>
      cases c with
      | nil => simp [strLeB] at hbc
      | cons z cs =>
        simp only [strLeB] at hab hbc ⊢
        by_cases h1 : x.toNat < y.toNat
        · by_cases h2 : y.toNat < z.toNat
          · rw [if_pos (by omega : x.toNat < z.toNat)]
          · by_cases h3 : z.toNat < y.toNat
            · rw [if_neg h2, if_pos h3] at hbc
              cases hbc
            · rw [if_pos (by omega : x.toNat < z.toNat)]
        · by_cases h4 : y.toNat < x.toNat
          · rw [if_neg h1, if_pos h4] at hab
            cases hab
          · by_cases h2 : y.toNat < z.toNat
            · rw [if_pos (by omega : x.toNat < z.toNat)]
            · by_cases h3 : z.toNat < y.toNat
              · rw [if_neg h2, if_pos h3] at hbc
                cases hbc
              · rw [if_neg h1, if_neg h4] at hab
                rw [if_neg h2, if_neg h3] at hbc
                rw [if_neg (by omega : ¬ x.toNat < z.toNat),
                  if_neg (by omega : ¬ z.toNat < x.toNat)]
                exact ih hab hbc

/-- Membership through sorted insertion. -/
theorem insertSorted_mem {x z : String} {l : List String} :
    z ∈ insertSorted x l ↔ z = x ∨ z ∈ l := by
  induction l with
  | nil => simp [insertSorted]
  | cons y rest ih =>
    by_cases h : strLe x y
    · simp only [insertSorted, if_pos h, List.mem_cons]
    · simp only [insertSorted, List.mem_cons, ih, if_neg h]
      tauto

/-- Sorted insertion preserves the ascending pairwise property. -/
theorem insertSorted_pairwise {x : String} {l : List String}
    (h : l.Pairwise fun a b => strLe a b = true) :
    (insertSorted x l).Pairwise fun a b => strLe a b = true := by
  induction l with
  | nil => simp [insertSorted]
  | cons y rest ih =>
    rcases List.pairwise_cons.mp h with ⟨hy, hrest⟩
    by_cases hxy : strLe x y = true
    · simp only [insertSorted, if_pos hxy]
      apply List.pairwise_cons.mpr
      refine ⟨?_, h⟩
      intro z hz
      rcases List.mem_cons.mp hz with h2 | h2
      · rw [h2]
        exact hxy
      · exact strLeB_trans hxy (hy z h2)
    · simp only [insertSorted, if_neg hxy]
      apply List.pairwise_cons.mpr
      constructor
      · intro z hz
        rcases insertSorted_mem.mp hz with h2 | h2
        · rw [h2]
          rcases strLeB_total (String.data x) (String.data y) with ht | ht
          · exact absurd ht hxy
          · exact ht
        · exact hy z h2
      · exact ih hrest

/-- The sorted list is pairwise ascending. -/
theorem sortStrings_pairwise (l : List String) :
    (sortStrings l).Pairwise fun a b => strLe a b = true := by
  induction l with
  | nil => simp [sortStrings]
  | cons x rest ih =>
    simp only [sortStrings]
    exact insertSorted_pairwise ih

/-- Sorting preserves membership. -/
theorem sortStrings_mem {z : String} {l : List String} :
    z ∈ sortStrings l ↔ z ∈ l := by
  induction l with
  | nil => simp [sortStrings]
  | cons x rest ih =>
    simp only [sortStrings, insertSorted_mem, ih, List.mem_cons]

/-- In a pairwise-ascending list every element compares below the last. -/
theorem pairwise_getLast_max {l : List String} {v : String}
    (h : l.Pairwise fun a b => strLe a b = true)
    (hv : l.getLast? = some v) : ∀ x ∈ l, strLe x v = true := by
  induction l with
  | nil => intro x hx; cases hx
  | cons a rest ih =>
    rcases List.pairwise_cons.mp h with ⟨ha, hrest⟩
    cases rest with
    | nil =>
      intro x hx
      rw [List.getLast?_singleton] at hv
      have hva : a = v := Option.some.inj hv
      rcases List.mem_cons.mp hx with h2 | h2
      · rw [h2, ← hva]
        exact strLeB_refl (String.data a)
      · cases h2
    | cons b r2 =>
      rw [List.getLast?_cons_cons] at hv
      intro x hx
      rcases List.mem_cons.mp hx with h2 | h2
      · rw [h2]
        exact ha v (List.mem_of_mem_getLast? hv)
      · exact ih hrest hv x h2

/-- C7 (confirmed): tool discovery selects the lexicographically greatest
entry name of the `build-tools` listing (sort, reverse, index 0); on the
documented listing it selects `30.0.3`; an empty or unreadable directory is
fatal before any signing step. -/
theorem build_tools_version_selection :
    (∀ entries v, selectBuildToolsVersion entries = some v →
      v ∈ entries ∧ ∀ x ∈ entries, strLe x v = true) ∧
    selectBuildToolsVersion ["29.0.2", "30.0.3", "28.0.0"] = some "30.0.3" ∧
    (∀ w rd kf kp, w.buildTools = some [] →
      sign_android w rd kf kp = ([], some PanicMsg.noBuildTools)) ∧
    (∀ w rd kf kp, w.buildTools = none →
      sign_android w rd kf kp = ([], some PanicMsg.buildToolsUnreadable)) := by
  refine ⟨?_, by decide, ?_, ?_⟩
  · intro entries v hv
    unfold selectBuildToolsVersion at hv
    rw [List.head?_reverse] at hv
    have hmem : v ∈ sortStrings entries := List.mem_of_mem_getLast? hv
    constructor
    · exact sortStrings_mem.mp hmem
    · intro x hx
      exact pairwise_getLast_max (sortStrings_pairwise entries) hv x
        (sortStrings_mem.mpr hx)
  · intro w rd kf kp h
    unfold sign_android
    rw [h]
    rfl
  · intro w rd kf kp h
    unfold sign_android
    rw [h]

/-- C7 witness: the documented listing, an empty listing and an unreadable
directory. -/
theorem build_tools_version_selection_witness :
    ("30.0.3" ∈ ["29.0.2", "30.0.3", "28.0.0"] ∧
      ∀ x ∈ ["29.0.2", "30.0.3", "28.0.0"], strLe x "30.0.3" = true) ∧
    sign_android wEmptyTools "rd" none none
        = ([], some PanicMsg.noBuildTools) ∧
    sign_android wNoTools "rd" none none
        = ([], some PanicMsg.buildToolsUnreadable) :=
  ⟨build_tools_version_selection.1 ["29.0.2", "30.0.3", "28.0.0"] "30.0.3"
      (by decide),
    build_tools_version_selection.2.2.1 wEmptyTools "rd" none none rfl,
    build_tools_version_selection.2.2.2 wNoTools "rd" none none rfl⟩

/-- C1 (corrected): a Target Artifact Set holding an unknown Compilation
Target always makes the assembly fail, but the failure happens at artifact
placement: the template copy and the manifest rewrite have already happened
when it occurs, contradicting the fail-before-any-mutation reading. -/
theorem create_android_project_unknown_target_fails_after_mutation :
    ∀ w root arts,
      (∃ ta ∈ arts, get_target_android_name ta.1 = none) →
      (create_android_project w root arts).2.isSome = true ∧
        Event.copyTemplate ∈ (create_android_project w root arts).1 ∧
        Event.rewriteProjectFile "app/src/main/AndroidManifest.xml"
          ∈ (create_android_project w root arts).1 := by
  intro w root arts hunk
  refine ⟨?_, ?_, ?_⟩
  · rcases hpl : permissionLoop (get_android_permissions root)
        (manifestAfterRewrite w.templateManifest (get_android_app_id root))
        (templEvents (get_android_app_id root)) with ⟨evs1, c1, err1⟩
    cases err1 with
    | some msg =>
      rw [create_eq_permFail hpl]
      rfl
    | none =>
      rcases hpl2 : placeLoop arts
          (linkStep w.sdlJniLinkExists (evs1 ++ [Event.removeCSources]))
        with ⟨evs3, err3⟩
      have hsome : (placeLoop arts
          (linkStep w.sdlJniLinkExists (evs1 ++ [Event.removeCSources]))).2.isSome
          = true := placeLoop_err_of_unknown hunk
      rw [hpl2] at hsome
      cases err3 with
      | none => cases hsome
      | some msg =>
        rw [create_eq_placeFail hpl hpl2]
        rfl
  · exact create_android_project_templ_mem (by simp [templEvents])
  · exact create_android_project_templ_mem (by simp [templEvents])

/-- C1 counterexample: with the unknown target `mips-linux-android` the run
fails with the unknown-target panic, yet the template copy and the manifest
rewrite are already in the trace when it does, so the failure is not before
every workspace mutation. -/
theorem create_android_project_mutation_before_unknown_target :
    (create_android_project w0 [] [("mips-linux-android", "lib.so")]).2
        = some (PanicMsg.unknownTarget "mips-linux-android") ∧
      Event.copyTemplate
        ∈ (create_android_project w0 [] [("mips-linux-android", "lib.so")]).1 ∧
      Event.rewriteProjectFile "app/src/main/AndroidManifest.xml"
        ∈ (create_android_project w0 [] [("mips-linux-android", "lib.so")]).1 := by
  decide

/-- C1 witness: the amended statement applied to a concrete run. -/
theorem create_android_project_unknown_target_fails_after_mutation_witness :
    (create_android_project w0 []
        [("mips64-linux-android", "lib.so")]).2.isSome = true ∧
      Event.copyTemplate ∈ (create_android_project w0 []
        [("mips64-linux-android", "lib.so")]).1 ∧
      Event.rewriteProjectFile "app/src/main/AndroidManifest.xml"
        ∈ (create_android_project w0 [] [("mips64-linux-android", "lib.so")]).1 :=
  create_android_project_unknown_target_fails_after_mutation w0 []
    [("mips64-linux-android", "lib.so")]
    ⟨("mips64-linux-android", "lib.so"), List.Mem.head _, rfl⟩

/-! ### Build and signing equations for the temporal claim -/

/-- Equation: a failed creation aborts the build before gradle. -/
theorem build_eq_createFail {w : World} {root : List (String × TomlValue)}
    {arts : List (String × String)} {profile : BuildProfile} {rd : String}
    {kf kp : Option String} {evsC : List Event} {msg : PanicMsg}
    (hcr : create_android_project w root arts = (evsC, some msg)) :
    build_android_project w root arts profile rd kf kp = (evsC, some msg) := by
  unfold build_android_project
  rw [hcr]

/-- Equation: a failed gradle invocation aborts the build before any
signing. -/
theorem build_eq_gradleFail {w : World} {root : List (String × TomlValue)}
    {arts : List (String × String)} {profile : BuildProfile} {rd : String}
    {kf kp : Option String} {evsC : List Event}
    (hcr : create_android_project w root arts = (evsC, none))
    (hg : w.gradleOk = false) :
    build_android_project w root arts profile rd kf kp
      = (evsC ++ [Event.gradle (gradleTask profile)], some PanicMsg.gradleFailed) := by
  unfold build_android_project
  rw [hcr]
  simp only
  rw [hg]
  rfl

/-- Equation: debug builds stop after gradle. -/
theorem build_eq_debug_success {w : World} {root : List (String × TomlValue)}
    {arts : List (String × String)} {rd : String}
    {kf kp : Option String} {evsC : List Event}
    (hcr : create_android_project w root arts = (evsC, none))
    (hg : w.gradleOk = true) :
    build_android_project w root arts BuildProfile.debug rd kf kp
      = (evsC ++ [Event.gradle "assembleDebug"], none) := by
  unfold build_android_project
  rw [hcr]
  simp only
  rw [hg]
  rfl

/-- Equation: release builds append the signing trace after gradle. -/
theorem build_eq_release {w : World} {root : List (String × TomlValue)}
    {arts : List (String × String)} {rd : String}
    {kf kp : Option String} {evsC : List Event} {sevs : List Event}
    {serr : Option PanicMsg}
    (hcr : create_android_project w root arts = (evsC, none))
    (hg : w.gradleOk = true)
    (hs : sign_android w rd kf kp = (sevs, serr)) :
    build_android_project w root arts BuildProfile.release rd kf kp
      = (evsC ++ [Event.gradle "assembleRelease"] ++ sevs, serr) := by
  unfold build_android_project
  rw [hcr]
  simp only
  rw [hg, hs]
  simp [gradleTask]

/-- Shape of the keystore-resolution events: empty, or one keystore
generation. -/
theorem resolveKeyCredential_events (ke kt : Bool) (rd : String)
    (kf kp : Option String) :
    (resolveKeyCredential ke kt rd kf kp).1 = [] ∨
      ∃ dn sp ks ka kz vd,
        (resolveKeyCredential ke kt rd kf kp).1
          = [Event.keytoolGen dn sp ks ka kz vd] := by
  cases kf with
  | some f =>
    cases kp with
    | none => exact Or.inl rfl
    | some p => exact Or.inl rfl
  | none =>
    by_cases hke : ke = true
    · left
      simp [resolveKeyCredential, hke]
    · by_cases hkt : kt = true
      · right
        exact ⟨"CN=Unknown, OU=Unknown, O=Unknown, L=Unknown, S=Unknown, C=Unknown",
          "android", conventionalKeystorePath rd, "RSA", 2048, 10000,
          by simp [resolveKeyCredential, hke, hkt]⟩
      · right
        exact ⟨"CN=Unknown, OU=Unknown, O=Unknown, L=Unknown, S=Unknown, C=Unknown",
          "android", conventionalKeystorePath rd, "RSA", 2048, 10000,
          by simp [resolveKeyCredential, hke, hkt]⟩

/-- Shape of a successful signing trace: possibly a keystore generation,
then exactly one alignment, then exactly one signing, in that order. -/
theorem sign_android_success_shape {w : World} {rd : String}
    {kf kp : Option String} {sevs : List Event}
    (h : sign_android w rd kf kp = (sevs, none)) :
    ∃ gen kfile kpass,
      sevs = gen ++ [Event.zipalign, Event.apksigner kfile kpass] ∧
        List.countP isZipalignEvent gen = 0 ∧
        List.countP isApksignerEvent gen = 0 := by
  unfold sign_android at h
  rcases hbt : w.buildTools with - | entries
  · rw [hbt] at h
    simp at h
  · rw [hbt] at h
    simp only at h
    rcases hsel : selectBuildToolsVersion entries with - | v
    · rw [hsel] at h
      simp at h
    · rw [hsel] at h
      simp only at h
      rcases hrc : resolveKeyCredential w.keystoreExists w.keytoolOk rd kf kp
        with ⟨ev1, cred⟩
      rw [hrc] at h
      simp only at h
      cases cred with
      | error msg => simp at h
      | ok pr =>
        rcases pr with ⟨kfile, kpass⟩
        simp only at h
        by_cases hz : w.zipalignOk = true
        · rw [if_pos hz] at h
          by_cases ha : w.apksignerOk = true
          · rw [if_pos ha] at h
            have hfst := congrArg Prod.fst h
            simp only at hfst
            refine ⟨ev1, kfile, kpass, ?_, ?_, ?_⟩
            · rw [← hfst, List.append_assoc]
              rfl
            · have := resolveKeyCredential_events w.keystoreExists w.keytoolOk
                rd kf kp
              rw [hrc] at this
              simp only at this
              rcases this with h1 | ⟨dn, sp, ks, ka, kz, vd, h1⟩ <;> rw [h1] <;> rfl
            · have := resolveKeyCredential_events w.keystoreExists w.keytoolOk
                rd kf kp
              rw [hrc] at this
              simp only at this
              rcases this with h1 | ⟨dn, sp, ks, ka, kz, vd, h1⟩ <;> rw [h1] <;> rfl
          · rw [if_neg ha] at h
            simp at h
        · rw [if_neg hz] at h
          simp at h

/-- Creation traces contain no signing-pipeline invocation at all. -/
theorem create_android_project_countP_sign (w : World)
    (root : List (String × TomlValue)) (arts : List (String × String)) :
    List.countP isSignEvent (create_android_project w root arts).1 = 0 ∧
      List.countP isZipalignEvent (create_android_project w root arts).1 = 0 ∧
      List.countP isApksignerEvent (create_android_project w root arts).1 = 0 := by
  refine ⟨?_, ?_, ?_⟩
  · apply List.countP_eq_zero.mpr
    intro a ha
    simp [(create_android_project_event_facts ha).1]
  · apply List.countP_eq_zero.mpr
    intro a ha
    simp [(create_android_project_event_facts ha).2.1]
  · apply List.countP_eq_zero.mpr
    intro a ha
    simp [(create_android_project_event_facts ha).2.2.1]

/-- C6 (corrected): debug builds perform no signing-pipeline invocation;
release builds whose build driver fails perform none either; and every
release build that completes successfully performed, after the gradle
invocation, possibly one keystore generation and then exactly one alignment
followed by exactly one signing, in that order.  (The original claim
promised exactly one alignment and one signing whenever the build driver
succeeds; a failing alignment tool leaves the signer uninvoked, see the
counterexample.) -/
theorem build_android_project_signing_order :
    (∀ w root arts rd kf kp,
      List.countP isSignEvent
        (build_android_project w root arts BuildProfile.debug rd kf kp).1 = 0) ∧
    (∀ w root arts rd kf kp, w.gradleOk = false →
      List.countP isSignEvent
        (build_android_project w root arts BuildProfile.release rd kf kp).1 = 0) ∧
    (∀ w root arts rd kf kp tr,
      build_android_project w root arts BuildProfile.release rd kf kp
          = (tr, none) →
      ∃ pre gen kfile kpass,
        tr = pre ++ [Event.gradle "assembleRelease"] ++ gen
            ++ [Event.zipalign, Event.apksigner kfile kpass] ∧
          List.countP isSignEvent pre = 0 ∧
          List.countP isZipalignEvent gen = 0 ∧
          List.countP isApksignerEvent gen = 0 ∧
          List.countP isZipalignEvent tr = 1 ∧
          List.countP isApksignerEvent tr = 1) := by
  refine ⟨?_, ?_, ?_⟩
  · intro w root arts rd kf kp
    rcases hcr : create_android_project w root arts with ⟨evsC, errC⟩
    have hC0 : List.countP isSignEvent evsC = 0 := by
      have hh := (create_android_project_countP_sign w root arts).1
      rw [hcr] at hh
      exact hh
    cases errC with
    | some msg =>
      rw [build_eq_createFail hcr]
      exact hC0
    | none =>
      by_cases hg : w.gradleOk = true
      · rw [build_eq_debug_success hcr hg, List.countP_append, hC0]
        rfl
      · rw [build_eq_gradleFail hcr (Bool.eq_false_iff.mpr hg),
          List.countP_append, hC0]
        rfl
  · intro w root arts rd kf kp hg
    rcases hcr : create_android_project w root arts with ⟨evsC, errC⟩
    have hC0 : List.countP isSignEvent evsC = 0 := by
      have hh := (create_android_project_countP_sign w root arts).1
      rw [hcr] at hh
      exact hh
    cases errC with
    | some msg =>
      rw [build_eq_createFail hcr]
      exact hC0
    | none =>
      rw [build_eq_gradleFail hcr hg, List.countP_append, hC0]
      rfl
  · intro w root arts rd kf kp tr hb
    rcases hcr : create_android_project w root arts with ⟨evsC, errC⟩
    cases errC with
    | some msg =>
      rw [build_eq_createFail hcr] at hb
      simp at hb
    | none =>
      by_cases hg : w.gradleOk = true
      · rcases hs : sign_android w rd kf kp with ⟨sevs, serr⟩
        rw [build_eq_release hcr hg hs] at hb
        have htr := congrArg Prod.fst hb
        have herr := congrArg Prod.snd hb
        simp only at htr herr
        subst herr
        rcases sign_android_success_shape hs with
          ⟨gen, kfile, kpass, hshape, hgz, hga⟩
        have hCz := (create_android_project_countP_sign w root arts).2.1
        have hCa := (create_android_project_countP_sign w root arts).2.2
        have hCs := (create_android_project_countP_sign w root arts).1
        rw [hcr] at hCz hCa hCs
        simp only at hCz hCa hCs
        refine ⟨evsC, gen, kfile, kpass, ?_, hCs, hgz, hga, ?_, ?_⟩
        · rw [← htr, hshape]
          simp [List.append_assoc]
        · rw [← htr, hshape, List.countP_append, List.countP_append,
            List.countP_append, hCz, hgz]
          rfl
        · rw [← htr, hshape, List.countP_append, List.countP_append,
            List.countP_append, hCa, hga]
          rfl
      · rw [build_eq_gradleFail hcr (Bool.eq_false_iff.mpr hg)] at hb
        simp at hb

/-- C6 counterexample: a release run whose build driver succeeds but whose
alignment tool fails invokes the alignment tool once and the signing tool
zero times, so the two tools are not each invoked exactly once. -/
theorem build_android_project_zipalign_failure_no_signer :
    (build_android_project wZipFail [] [("aarch64-linux-android", "lib.so")]
        BuildProfile.release "rd" none none).2 = some PanicMsg.zipalignFailed ∧
      Event.gradle "assembleRelease"
        ∈ (build_android_project wZipFail [] [("aarch64-linux-android", "lib.so")]
            BuildProfile.release "rd" none none).1 ∧
      List.countP isZipalignEvent
        (build_android_project wZipFail [] [("aarch64-linux-android", "lib.so")]
          BuildProfile.release "rd" none none).1 = 1 ∧
      List.countP isApksignerEvent
        (build_android_project wZipFail [] [("aarch64-linux-android", "lib.so")]
          BuildProfile.release "rd" none none).1 = 0 := by
  decide

/-- C6 witness: the amended statement applied to concrete debug, failed
gradle and successful release runs. -/
theorem build_android_project_signing_order_witness :
    List.countP isSignEvent
        (build_android_project w0 [] [] BuildProfile.debug "rd" none none).1
        = 0 ∧
      List.countP isSignEvent
        (build_android_project wGradleFail [] [] BuildProfile.release "rd"
          none none).1 = 0 ∧
      ∃ pre gen kfile kpass,
        (build_android_project w0 [] [] BuildProfile.release "rd" none none).1
            = pre ++ [Event.gradle "assembleRelease"] ++ gen
              ++ [Event.zipalign, Event.apksigner kfile kpass] ∧
          List.countP isSignEvent pre = 0 ∧
          List.countP isZipalignEvent gen = 0 ∧
          List.countP isApksignerEvent gen = 0 ∧
          List.countP isZipalignEvent
            (build_android_project w0 [] [] BuildProfile.release "rd"
              none none).1 = 1 ∧
          List.countP isApksignerEvent
            (build_android_project w0 [] [] BuildProfile.release "rd"
              none none).1 = 1 :=
  ⟨build_android_project_signing_order.1 w0 [] [] "rd" none none,
    build_android_project_signing_order.2.1 wGradleFail [] [] "rd" none none
      rfl,
    build_android_project_signing_order.2.2 w0 [] [] "rd" none none
      (build_android_project w0 [] [] BuildProfile.release "rd" none none).1
      (by decide)⟩

end CargoSdlApk
